import Mathlib

/-!
# crud-redis: the store gateway (server.js) and the admin client (public/app.js)

A shallow embedding of the REST handlers of `server.js` and of the pure rendering
helpers of `public/app.js`, together with a model of the key-value store commands
the handlers issue.

Modelling conventions.

* The store is an external collaborator.  Its commands are modelled after their
  documented behaviour on a time-free snapshot: no time passes between two requests,
  so a key with a remaining time-to-live keeps it until a command changes it.
* A time-to-live is an integer number of seconds.
* A sorted-set score is a number of the platform.  The model leaves the numbers open:
  the type of scores, their order, the text the store prints for a score and the
  builtin `parseFloat` of the client are the parameters `Numbers`, and every definition
  and theorem holds for every such type.  The two facts about the platform that some
  theorems rest on (`parseFloat` reads back the text the store prints; that text holds
  none of the five special characters of HTML) are hypotheses of those theorems.  They
  are proved for the integers below 2^52 in magnitude (`SafeInt`, printed in plain
  decimal), on which the examples are evaluated.
* A request body field that may be missing is an `Option`; a JSON `null` is read like
  a missing field (both are falsy and neither is an array, an object or a string).
* The `value` of a request is missing or has one of the four shapes of the API (string,
  array of strings, array of `{member, score}` objects, object with string values).  A
  handler answers `none` exactly when it hands the store client a value of a shape the
  selected command does not take; what the client library then sends is not decided by
  the code of the repository.  On every other request the handler answers `some`
  result.
* The key of `POST /api/keys` is a JSON string; the handler reads the empty string as a
  missing key, so a create request for a key carries a non-empty key.
-/

namespace CrudRedis

/-! ## Numbers -/

/-- The numbers that serve as scores: the numbers a request can carry, with their
order, the text `formatScore` the store prints for a score in a reply, and the builtin
`parseFloat` with which the client reads a text (`none` when it reads no number).
Nothing is fixed about digits, fractions or exponents. -/
class Numbers (σ : Type) extends LinearOrder σ where
  formatScore : σ → String
  parseFloat : String → Option σ

export Numbers (formatScore parseFloat)

variable {σ : Type} [Numbers σ]

/-! ## The store -/

/-- The five value shapes the gateway handles.  A set keeps its distinct members in
insertion order (the order `SMEMBERS` answers in is unspecified, nothing below relies
on it); a sorted set keeps `(member, score)` pairs with distinct members, ordered by
score and then by member; a hash keeps `(field, value)` pairs with distinct fields. -/
inductive RedisValue (σ : Type) where
  | string (s : String)
  | list (items : List String)
  | set (members : List String)
  | zset (pairs : List (String × σ))
  | hash (fields : List (String × String))
  deriving DecidableEq

/-- The name under which the store reports the type of a value. -/
def RedisValue.typeName : RedisValue σ → String
  | .string _ => "string"
  | .list _ => "list"
  | .set _ => "set"
  | .zset _ => "zset"
  | .hash _ => "hash"

/-- What the store holds under one key: the value and, when the key is volatile,
the remaining time-to-live in seconds (`none` for a persistent key). -/
structure Stored (σ : Type) where
  value : RedisValue σ
  expire : Option Int
  deriving DecidableEq

/-- The key space: each key name holds at most one value. -/
def Store (σ : Type) : Type := String → Option (Stored σ)

/-- The store with `key` bound to `e`. -/
def Store.put (s : Store σ) (key : String) (e : Stored σ) : Store σ :=
  fun k => if k = key then some e else s k

/-- The store with `key` unbound. -/
def Store.remove (s : Store σ) (key : String) : Store σ :=
  fun k => if k = key then none else s k

/-- Reply of a store command: an error reply carries the error text and leaves the
store as it was. -/
abbrev Reply (α : Type) : Type := Except String α

/-- The error text of a command applied to a key of another type. -/
def wrongType : String := "WRONGTYPE Operation against a key holding the wrong kind of value"

/-- The error text of a command sent with too few arguments. -/
def wrongArity : String := "ERR wrong number of arguments"

/-- `EXISTS key`: 1 when the key is bound, 0 otherwise. -/
def redisExists (s : Store σ) (key : String) : Nat :=
  if (s key).isSome then 1 else 0

/-- `TYPE key`: the type name of the value, `none` for an unbound key. -/
def redisType (s : Store σ) (key : String) : String :=
  match s key with
  | none => "none"
  | some e => e.value.typeName

/-- `TTL key`: -2 for an unbound key, -1 for a persistent key, else the remaining
seconds. -/
def redisTtl (s : Store σ) (key : String) : Int :=
  match s key with
  | none => -2
  | some ⟨_, none⟩ => -1
  | some ⟨_, some t⟩ => t

/-- `SET key value`: binds the key to the string, whatever it held, and discards any
time-to-live the key had. -/
def redisSet (s : Store σ) (key : String) (value : String) : Store σ :=
  s.put key ⟨.string value, none⟩

/-- `SETEX key seconds value`: binds the key to the string with the given
time-to-live. -/
def redisSetex (s : Store σ) (key : String) (seconds : Int) (value : String) : Store σ :=
  s.put key ⟨.string value, some seconds⟩

/-- `DEL key ...`: unbinds every listed key; the reply counts the keys that were
bound. -/
def redisDel (s : Store σ) : List String → Nat × Store σ
  | [] => (0, s)
  | k :: ks =>
    let r := redisDel (s.remove k) ks
    (redisExists s k + r.1, r.2)

/-- `RPUSH key item ...`: appends the items to the list at `key`, creating it when the
key is unbound. -/
def redisRpush (s : Store σ) (key : String) (items : List String) : Reply (Store σ) :=
  match items with
  | [] => .error wrongArity
  | _ =>
    match s key with
    | none => .ok (s.put key ⟨.list items, none⟩)
    | some ⟨.list old, e⟩ => .ok (s.put key ⟨.list (old ++ items), e⟩)
    | some _ => .error wrongType

/-- Adds one member to the members of a set, unless it is there already. -/
def saddOne (members : List String) (m : String) : List String :=
  if m ∈ members then members else members ++ [m]

/-- `SADD key member ...`: adds the members to the set at `key`, creating it when the
key is unbound. -/
def redisSadd (s : Store σ) (key : String) (members : List String) : Reply (Store σ) :=
  match members with
  | [] => .error wrongArity
  | _ =>
    match s key with
    | none => .ok (s.put key ⟨.set (members.foldl saddOne []), none⟩)
    | some ⟨.set old, e⟩ => .ok (s.put key ⟨.set (members.foldl saddOne old), e⟩)
    | some _ => .error wrongType

/-- Lexicographic order of two member names, character by character. -/
def memberLe : List Char → List Char → Bool
  | [], _ => true
  | _ :: _, [] => false
  | a :: as, b :: bs =>
    decide (a.toNat < b.toNat) || (decide (a.toNat = b.toNat) && memberLe as bs)

/-- The sorted-set order: by score, members of equal score in lexicographic order. -/
def zle (a b : String × σ) : Bool :=
  decide (a.2 < b.2) || (decide (a.2 = b.2) && memberLe a.1.data b.1.data)

/-- Inserts a pair at its place in an ordered sequence of pairs. -/
def zinsert (p : String × σ) : List (String × σ) → List (String × σ)
  | [] => [p]
  | q :: qs => if zle p q then p :: q :: qs else q :: zinsert p qs

/-- Adds one `(member, score)` pair to a sorted set: a member that is present gets the
new score, and the pair takes its place in the order. -/
def zaddOne (pairs : List (String × σ)) (p : String × σ) : List (String × σ) :=
  zinsert p (pairs.filter (fun q => q.1 ≠ p.1))

/-- `ZADD key score member ...`: adds the pairs, from left to right, to the sorted set
at `key`, creating it when the key is unbound. -/
def redisZadd (s : Store σ) (key : String) (pairs : List (String × σ)) : Reply (Store σ) :=
  match pairs with
  | [] => .error wrongArity
  | _ =>
    match s key with
    | none => .ok (s.put key ⟨.zset (pairs.foldl zaddOne []), none⟩)
    | some ⟨.zset old, e⟩ => .ok (s.put key ⟨.zset (pairs.foldl zaddOne old), e⟩)
    | some _ => .error wrongType

/-- Sets one field of a hash: a field that is present keeps its place and takes the
new value, a new field goes last. -/
def hsetOne : List (String × String) → String × String → List (String × String)
  | [], p => [p]
  | q :: qs, p => if q.1 = p.1 then (q.1, p.2) :: qs else q :: hsetOne qs p

/-- `HMSET key field value ...`: sets the fields, from left to right, in the hash at
`key`, creating it when the key is unbound.  Called with an object without fields, the
command goes out with the key alone and the store rejects it. -/
def redisHmset (s : Store σ) (key : String) (fields : List (String × String)) : Reply (Store σ) :=
  match fields with
  | [] => .error wrongArity
  | _ =>
    match s key with
    | none => .ok (s.put key ⟨.hash (fields.foldl hsetOne []), none⟩)
    | some ⟨.hash old, e⟩ => .ok (s.put key ⟨.hash (fields.foldl hsetOne old), e⟩)
    | some _ => .error wrongType

/-- `EXPIRE key seconds`: gives a bound key the time-to-live (a key given a
non-positive one is deleted at once); an unbound key is left unbound. -/
def redisExpire (s : Store σ) (key : String) (seconds : Int) : Store σ :=
  match s key with
  | none => s
  | some e => if 0 < seconds then s.put key ⟨e.value, some seconds⟩ else s.remove key

/-- `PERSIST key`: removes the time-to-live of a bound key. -/
def redisPersist (s : Store σ) (key : String) : Store σ :=
  match s key with
  | none => s
  | some e => s.put key ⟨e.value, none⟩

/-! ## Decimal printing -/

/-- The decimal digits of a number, least significant first; `fuel` bounds the number
of digits. -/
def digitsLE : Nat → Nat → List Nat
  | 0, _ => []
  | fuel + 1, n => if n < 10 then [n] else (n % 10) :: digitsLE fuel (n / 10)

/-- The character of a decimal digit. -/
def digitChar (d : Nat) : Char := Char.ofNat (48 + d)

/-- A natural number in plain decimal, most significant digit first. -/
def decimal (n : Nat) : List Char :=
  ((digitsLE (n + 1) n).reverse).map digitChar

/-! ## Values on the wire -/

/-- The `value` field of an Entry as the gateway sends it. -/
inductive Wire where
  | null
  | text (s : String)
  | items (xs : List String)
  | object (fields : List (String × String))
  deriving DecidableEq

/-- `ZRANGE key 0 -1 WITHSCORES`: the flat alternating sequence
`member1, score1, member2, score2, ...`. -/
def withScores : List (String × σ) → List String
  | [] => []
  | p :: ps => p.1 :: formatScore p.2 :: withScores ps

/-- The per-type read of `GET /api/keys/:key` (`GET`, `LRANGE 0 -1`, `SMEMBERS`,
`ZRANGE 0 -1 WITHSCORES`, `HGETALL`). -/
def readValue : RedisValue σ → Wire
  | .string v => .text v
  | .list items => .items items
  | .set members => .items members
  | .zset pairs => .items (withScores pairs)
  | .hash fields => .object fields

/-! ## Requests and responses -/

/-- The `value` field of a request body: missing (or `null`), a string, an array of
strings, an array of `{member, score}` objects, or an object with string values.  The
empty array is both `items []` and `scored []`. -/
inductive Payload (σ : Type) where
  | absent
  | text (s : String)
  | items (xs : List String)
  | scored (xs : List (String × σ))
  | fields (xs : List (String × String))
  deriving DecidableEq

/-- Body of a response. -/
inductive Body where
  | error (msg : String)
  | message (msg : String) (key : String)
  | entry (key : String) (type : String) (value : Wire) (ttl : Int)
  | deleted (msg : String) (deletedCount : Nat)
  deriving DecidableEq

/-- Outcome of a request: the response and the store the request leaves behind. -/
structure Result (σ : Type) where
  status : Nat
  body : Body
  store : Store σ

/-- Body of `POST /api/keys`. -/
structure CreateRequest (σ : Type) where
  key : Option String
  type : Option String
  value : Payload σ
  ttl : Option Int

/-- Body of `PUT /api/keys/:key`. -/
structure UpdateRequest (σ : Type) where
  value : Payload σ
  ttl : Option Int

/-- The test `ttl && ttl > 0`. -/
def ttlPositive : Option Int → Bool
  | some t => decide (0 < t)
  | none => false

/-- The test `!x` on a string field that may be missing. -/
def falsy : Option String → Bool
  | none => true
  | some x => decide (x = "")

/-- The expression `value || ''` of the string branch, for a value that is missing
or a string. -/
def orEmpty : Payload σ → Option String
  | .absent => some ""
  | .text v => some v
  | _ => none

/-- The arguments of the list and set branches: `none` when the guard
`Array.isArray(value) && value.length > 0` fails. -/
def spreadItems : Payload σ → Option (Option (List String))
  | .items (x :: xs) => some (some (x :: xs))
  | .scored (_ :: _) => none
  | _ => some none

/-- The arguments of the sorted-set branch, `value.flatMap(item => [item.score,
item.member])`: `none` when the guard `Array.isArray(value) && value.length > 0`
fails. -/
def spreadScored : Payload σ → Option (Option (List (String × σ)))
  | .scored (x :: xs) => some (some (x :: xs))
  | .items (_ :: _) => none
  | _ => some none

/-- The argument of the hash branch: `none` when the guard
`value && typeof value === 'object'` fails. -/
def objectArg : Payload σ → Option (Option (List (String × String)))
  | .absent => some none
  | .text _ => some none
  | .fields fs => some (some fs)
  | .items [] => some (some [])
  | .scored [] => some (some [])
  | _ => none

/-! ## The handlers of server.js -/

/-- How the type switch of a handler ends: it ran through, a store command was
rejected (the handler then answers 500 from its `catch`), or the type is not one of the
five. -/
inductive Step (σ : Type) where
  | next (s : Store σ)
  | thrown (msg : String) (s : Store σ)
  | invalid

/-- The end of a switch branch that issued one write command on store `s`. -/
def Step.ofReply (s : Store σ) : Reply (Store σ) → Step σ
  | .ok s' => .next s'
  | .error msg => .thrown msg s

/-- The type switch of `POST /api/keys`.  The result is `none` when the value has a
shape the selected command does not take (a non-string for `SET`, objects for `RPUSH`
or `SADD`, strings for `ZADD`, a non-empty array for `HMSET`): what then reaches the
store is decided by the argument coercion of the store client, which is outside this
repository. -/
def createSwitch (s : Store σ) (key type : String) (value : Payload σ) (ttl : Option Int) :
    Option (Step σ) :=
  if type = "string" then
    (orEmpty value).map fun v =>
      if ttlPositive ttl then .next (redisSetex s key (ttl.getD 0) v)
      else .next (redisSet s key v)
  else if type = "list" then
    (spreadItems value).map fun a =>
      match a with
      | some xs => Step.ofReply s (redisRpush s key xs)
      | none => .next s
  else if type = "set" then
    (spreadItems value).map fun a =>
      match a with
      | some xs => Step.ofReply s (redisSadd s key xs)
      | none => .next s
  else if type = "zset" then
    (spreadScored value).map fun a =>
      match a with
      | some ps => Step.ofReply s (redisZadd s key ps)
      | none => .next s
  else if type = "hash" then
    (objectArg value).map fun a =>
      match a with
      | some fs => Step.ofReply s (redisHmset s key fs)
      | none => .next s
  else some .invalid

/-- Handler of `POST /api/keys` (create a new key). -/
def createKey (s : Store σ) (req : CreateRequest σ) : Option (Result σ) :=
  if falsy req.key || falsy req.type then
    some ⟨400, .error "Key and type are required", s⟩
  else
    let key := req.key.getD ""
    let type := req.type.getD ""
    if redisExists s key ≠ 0 then
      some ⟨409, .error "Key already exists", s⟩
    else
      (createSwitch s key type req.value req.ttl).map fun step =>
        match step with
        | .invalid => ⟨400, .error "Invalid type", s⟩
        | .thrown msg s1 => ⟨500, .error msg, s1⟩
        | .next s1 =>
          let s2 := if ttlPositive req.ttl && decide (type ≠ "string")
            then redisExpire s1 key (req.ttl.getD 0) else s1
          ⟨201, .message "Key created successfully" key, s2⟩

/-- The type switch of `PUT /api/keys/:key`, on the type the key has: a string is
overwritten in place, any other value is deleted and rebuilt from the new value.  The
result is `none` as for `createSwitch`. -/
def updateSwitch (s : Store σ) (key type : String) (value : Payload σ) : Option (Step σ) :=
  if type = "string" then
    (orEmpty value).map fun v => .next (redisSet s key v)
  else if type = "list" then
    let s1 := (redisDel s [key]).2
    (spreadItems value).map fun a =>
      match a with
      | some xs => Step.ofReply s1 (redisRpush s1 key xs)
      | none => .next s1
  else if type = "set" then
    let s1 := (redisDel s [key]).2
    (spreadItems value).map fun a =>
      match a with
      | some xs => Step.ofReply s1 (redisSadd s1 key xs)
      | none => .next s1
  else if type = "zset" then
    let s1 := (redisDel s [key]).2
    (spreadScored value).map fun a =>
      match a with
      | some ps => Step.ofReply s1 (redisZadd s1 key ps)
      | none => .next s1
  else if type = "hash" then
    let s1 := (redisDel s [key]).2
    (objectArg value).map fun a =>
      match a with
      | some fs => Step.ofReply s1 (redisHmset s1 key fs)
      | none => .next s1
  else some .invalid

/-- The ttl step of `PUT /api/keys/:key`: a positive ttl sets the expiration, a ttl of
exactly -1 removes it, any other ttl (zero, another negative number, none) issues no
command. -/
def updateTtl (s : Store σ) (key : String) (ttl : Option Int) : Store σ :=
  if ttlPositive ttl then redisExpire s key (ttl.getD 0)
  else if ttl = some (-1) then redisPersist s key
  else s

/-- Handler of `PUT /api/keys/:key` (update an existing key). -/
def updateKey (s : Store σ) (key : String) (req : UpdateRequest σ) : Option (Result σ) :=
  if redisExists s key = 0 then
    some ⟨404, .error "Key not found", s⟩
  else
    (updateSwitch s key (redisType s key) req.value).map fun step =>
      match step with
      | .invalid => ⟨400, .error "Invalid type", s⟩
      | .thrown msg s1 => ⟨500, .error msg, s1⟩
      | .next s1 => ⟨200, .message "Key updated successfully" key, updateTtl s1 key req.ttl⟩

/-- Handler of `GET /api/keys/:key` (get a specific key). -/
def getKey (s : Store σ) (key : String) : Result σ :=
  if redisExists s key = 0 then
    ⟨404, .error "Key not found", s⟩
  else
    let value := match s key with
      | some e => readValue e.value
      | none => Wire.null
    ⟨200, .entry key (redisType s key) value (redisTtl s key), s⟩

/-- Handler of `DELETE /api/keys/:key` (delete a key). -/
def deleteKey (s : Store σ) (key : String) : Result σ :=
  let r := redisDel s [key]
  if r.1 = 0 then ⟨404, .error "Key not found", r.2⟩
  else ⟨200, .message "Key deleted successfully" key, r.2⟩

/-! ## The admin client (public/app.js) -/

/-- One step of reading a decimal number: the digit `c` appended to the number read so
far; no number once a character is not a digit. -/
def digitStep (acc : Option Nat) (c : Char) : Option Nat :=
  match acc with
  | some n => if c.isDigit then some (10 * n + (c.toNat - 48)) else none
  | none => none

/-- The number written by a non-empty string of decimal digits. -/
def parseDigits : List Char → Option Nat
  | [] => none
  | c :: cs => (c :: cs).foldl digitStep (some 0)

/-- The loop of `editKey` that rebuilds `{member, score}` objects from the flat wire
value of a sorted set: `value[i]` with `parseFloat(value[i + 1])` for every even `i`.
A member without a score is paired with `parseFloat(undefined)`, which is no number. -/
def zsetArray : List String → List (String × Option σ)
  | [] => []
  | [m] => [(m, none)]
  | m :: v :: rest => (m, parseFloat v) :: zsetArray rest

/-! ## Safe integers -/

/-- The integers below 2^52 in magnitude: numbers that JSON, the store and the client
all carry exactly and write in plain decimal. -/
structure SafeInt where
  val : Int
  small : val.natAbs < 2 ^ 52
  deriving DecidableEq

/-- The safe integers are ordered as integers. -/
instance : LinearOrder SafeInt :=
  LinearOrder.lift' SafeInt.val (by
    intro a b h
    cases a
    cases b
    simp_all)

/-- The safe integer of an integer, when it is one. -/
def SafeInt.ofInt (i : Int) : Option SafeInt :=
  if h : i.natAbs < 2 ^ 52 then some ⟨i, h⟩ else none

/-- The text of a safe integer: a minus sign for a negative one, then the decimal
digits. -/
def SafeInt.formatScore (v : SafeInt) : String :=
  if v.val < 0 then ⟨'-' :: decimal v.val.natAbs⟩ else ⟨decimal v.val.natAbs⟩

/-- The builtin `parseFloat` on the texts of safe integers: the value of a text made of
an optional minus sign and decimal digits, when it is a safe integer; `none` on every
other text, on which the builtin reads no number or a number that is no safe integer
written in this way. -/
def SafeInt.parseFloat (text : String) : Option SafeInt :=
  match text.data with
  | [] => none
  | c :: cs =>
    if c = '-' then (parseDigits cs).bind (fun (n : Nat) => SafeInt.ofInt (-(n : Int)))
    else (parseDigits (c :: cs)).bind (fun (n : Nat) => SafeInt.ofInt (n : Int))

/-- The safe integers as scores. -/
instance : Numbers SafeInt where
  formatScore := SafeInt.formatScore
  parseFloat := SafeInt.parseFloat

/-! ## Example scores and stores -/

/-- The safe integer 1. -/
def scoreOne : SafeInt := ⟨1, by decide⟩

/-- The safe integer 2. -/
def scoreTwo : SafeInt := ⟨2, by decide⟩

/-- The store without keys. -/
def emptyStore : Store SafeInt := fun _ => none

/-- A store with the persistent set `{a, b, c}` under `tags`. -/
def tagsStore : Store SafeInt :=
  emptyStore.put "tags" ⟨.set ["a", "b", "c"], none⟩

/-- A store with the list `[x, y]` under `queue`, due to expire in 60 seconds. -/
def queueStore : Store SafeInt :=
  emptyStore.put "queue" ⟨.list ["x", "y"], some 60⟩

/-- A store with the string `hello` under `greeting`, due to expire in 100 seconds. -/
def greetingStore : Store SafeInt :=
  emptyStore.put "greeting" ⟨.string "hello", some 100⟩

/-! ## Shapes of values -/

/-- The payloads of the shape of a type: a string for `string`, a non-empty array of
strings for `list` and `set`, a non-empty array of `{member, score}` objects with
distinct members for `zset`, an object with at least one field for `hash` (the fields of
an object are distinct). -/
def shaped (type : String) : Payload σ → Prop
  | .absent => False
  | .text _ => type = "string"
  | .items xs => (type = "list" ∨ type = "set") ∧ xs ≠ []
  | .scored ps => type = "zset" ∧ ps ≠ [] ∧ (ps.map Prod.fst).Nodup
  | .fields fs => type = "hash" ∧ fs ≠ [] ∧ (fs.map Prod.fst).Nodup

/-- A wire value holds exactly what a payload of the given type holds: the same string,
the same list, the same set of members (each once, in any order), the same
`{member, score}` pairs once the flat sequence is de-interleaved (in any order), the
same fields with the same values (in any order). -/
def sameValue (type : String) : Payload σ → Wire → Prop
  | .text v, .text w => w = v
  | .items xs, .items ws =>
    if type = "list" then ws = xs else ws.Nodup ∧ ∀ m, m ∈ ws ↔ m ∈ xs
  | .scored ps, .items ws => (zsetArray ws).Perm (ps.map fun p => (p.1, some p.2))
  | .fields fs, .object gs => gs.Perm fs
  | _, _ => False

/-! ## Rendering (public/app.js) -/

/-- The replacement `escapeHtml` makes of one character: the entity of `&`, `<`, `>`,
the double quote (character 34) and the single quote (character 39), any other
character as it is. -/
def escapeChar (c : Char) : List Char :=
  if c = '&' then "&amp;".data
  else if c = '<' then "&lt;".data
  else if c = '>' then "&gt;".data
  else if c = Char.ofNat 34 then "&quot;".data
  else if c = Char.ofNat 39 then "&#039;".data
  else [c]

/-- The replacement of every character of a text, `replace(/[&<>"']/g, m => map[m])`. -/
def escapeChars : List Char → List Char
  | [] => []
  | c :: cs => escapeChar c ++ escapeChars cs

/-- The function `escapeHtml`: the empty string for `null` and `undefined` (here
`none`), else the text with its special characters replaced. -/
def escapeHtml (text : Option String) : String :=
  match text with
  | none => ""
  | some t => ⟨escapeChars t.data⟩

/-- Text of the `string` view before the value. -/
def stringOpen : String :=
  "<div class=\"value-display\">"

/-- Text of the `string` view after the value. -/
def stringClose : String :=
  "</div>"

/-- Text of a row of the hash, list and set tables before its first cell. -/
def rowOpen : String :=
  "\n                <tr>\n                    <td>"

/-- Text of a row of the hash and list tables between its two cells. -/
def cellBreak : String :=
  "</td>\n                    <td>"

/-- Text of a row of the hash, list and set tables after its last cell. -/
def rowClose : String :=
  "</td>\n                </tr>\n            "

/-- Text of a row of the zset table before its first cell. -/
def zsetRowOpen : String :=
  "\n                    <tr>\n                        <td>"

/-- Text of a row of the zset table between its two cells. -/
def zsetCellBreak : String :=
  "</td>\n                        <td>"

/-- Text of a row of the zset table after its last cell. -/
def zsetRowClose : String :=
  "</td>\n                    </tr>\n                "

/-- Text of the hash table before its rows. -/
def hashHead : String :=
  "\n                <table class=\"value-table\">\n                    <thead>\n                        <tr>\n                            <th>Field</th>\n                            <th>Value</th>\n                        </tr>\n                    </thead>\n                    <tbody>"

/-- Text of the list table before its rows. -/
def listHead : String :=
  "\n                <table class=\"value-table\">\n                    <thead>\n                        <tr>\n                            <th>Index</th>\n                            <th>Value</th>\n                        </tr>\n                    </thead>\n                    <tbody>"

/-- Text of the set table before its rows. -/
def setHead : String :=
  "\n                <table class=\"value-table\">\n                    <thead>\n                        <tr>\n                            <th>Member</th>\n                        </tr>\n                    </thead>\n                    <tbody>"

/-- Text of the zset table before its rows. -/
def zsetHead : String :=
  "\n                <table class=\"value-table\">\n                    <thead>\n                        <tr>\n                            <th>Member</th>\n                            <th>Score</th>\n                        </tr>\n                    </thead>\n                    <tbody>"

/-- Text of a table after its rows. -/
def tableTail : String :=
  "</tbody>\n                </table>\n            "

/-- Text returned for a type that is not one of the five. -/
def unknownType : String :=
  "<div class=\"value-display\">Unknown type</div>"

/-- The rows of the hash table, `Object.entries(value).map(...).join('')`. -/
def hashRows : List (String × String) → String
  | [] => ""
  | (key, val) :: rest =>
    rowOpen ++ escapeHtml (some key) ++ cellBreak ++ escapeHtml (some val) ++ rowClose ++
      hashRows rest

/-- The rows of the list table from position `index` on,
`value.map((item, index) => ...).join('')`. -/
def listRows (index : Nat) : List String → String
  | [] => ""
  | item :: rest =>
    rowOpen ++ ⟨decimal index⟩ ++ cellBreak ++ escapeHtml (some item) ++ rowClose ++
      listRows (index + 1) rest

/-- The rows of the set table, `value.map(item => ...).join('')`. -/
def setRows : List String → String
  | [] => ""
  | item :: rest => rowOpen ++ escapeHtml (some item) ++ rowClose ++ setRows rest

/-- The rows of the zset table, one for every even position `i` of the flat value: the
member `value[i]` escaped, the score `value[i + 1]` as it is (`undefined` when the value
ends on a member). -/
def zsetRows : List String → String
  | [] => ""
  | [member] =>
    zsetRowOpen ++ escapeHtml (some member) ++ zsetCellBreak ++ "undefined" ++ zsetRowClose
  | member :: score :: rest =>
    zsetRowOpen ++ escapeHtml (some member) ++ zsetCellBreak ++ score ++ zsetRowClose ++
      zsetRows rest

/-- The function `renderValue`, on a value that has the wire shape of the type (a
string or `null` for `string`, an object for `hash`, an array for `list`, `set` and
`zset`); `none` for a value of another shape, which the function does not receive from
the gateway. -/
def renderValue (type : String) (value : Wire) : Option String :=
  if type = "string" then
    match value with
    | .text v => some (stringOpen ++ escapeHtml (some v) ++ stringClose)
    | .null => some (stringOpen ++ escapeHtml none ++ stringClose)
    | _ => none
  else if type = "hash" then
    match value with
    | .object fields => some (hashHead ++ hashRows fields ++ tableTail)
    | _ => none
  else if type = "list" then
    match value with
    | .items xs => some (listHead ++ listRows 0 xs ++ tableTail)
    | _ => none
  else if type = "set" then
    match value with
    | .items xs => some (setHead ++ setRows xs ++ tableTail)
    | _ => none
  else if type = "zset" then
    match value with
    | .items xs => some (zsetHead ++ zsetRows xs ++ tableTail)
    | _ => none
  else some unknownType

/-! ## Markup characters -/

/-- The characters that open or close a tag or an attribute value: `<`, `>`, the double
quote and the single quote. -/
def isMarkup (c : Char) : Bool :=
  decide (c = '<') || decide (c = '>') || decide (c = Char.ofNat 34) ||
    decide (c = Char.ofNat 39)

/-- The markup characters of a text, in order. -/
def markup (text : String) : List Char :=
  text.data.filter isMarkup

/-- The five entities `escapeHtml` writes. -/
def entities : List (List Char) :=
  ["&amp;".data, "&lt;".data, "&gt;".data, "&quot;".data, "&#039;".data]

/-- Every `&` of a text begins one of the five entities. -/
def ampsEscaped : List Char → Bool
  | [] => true
  | c :: cs =>
    (decide (c ≠ '&') || entities.any (fun e => e.isPrefixOf (c :: cs))) && ampsEscaped cs

/-- A flat zset value with every member replaced by the empty string and every score
kept. -/
def blankMembers : List String → List String
  | [] => []
  | [_] => [""]
  | _ :: score :: rest => "" :: score :: blankMembers rest

/-- A wire value with every stored string replaced by the empty string, except the
scores of a zset, which are kept. -/
def redact (type : String) : Wire → Wire
  | .null => .null
  | .text _ => .text ""
  | .items xs => if type = "zset" then .items (blankMembers xs) else .items (xs.map fun _ => "")
  | .object fields => .object (fields.map fun _ => ("", ""))

/-! ## Delete multiple (server.js) -/

/-- Handler of `POST /api/keys/delete-multiple` (delete multiple keys).  The `keys` of
the body are `none` when the field is missing or is not an array; the handler then
answers 400, as it does for the empty array. -/
def deleteMultiple (s : Store σ) (keys : Option (List String)) : Result σ :=
  match keys with
  | some (k :: ks) =>
    let r := redisDel s (k :: ks)
    ⟨200, .deleted (⟨decimal r.1⟩ ++ " key(s) deleted successfully") r.1, r.2⟩
  | _ => ⟨400, .error "Keys array is required", s⟩

/-- A store with the three persistent strings `a`, `b` and `c`. -/
def abcStore : Store SafeInt :=
  ((emptyStore.put "a" ⟨.string "1", none⟩).put "b" ⟨.string "2", none⟩).put "c"
    ⟨.string "3", none⟩

/-- The five characters `escapeHtml` replaces: `&`, `<`, `>`, the double quote and the
single quote. -/
def isSpecial (c : Char) : Bool :=
  decide (c = '&') || isMarkup c

/-! # Properties -/

/-! ## Facts about the store commands -/

@[simp] theorem Store.put_same {τ : Type} (s : Store τ) (key : String) (e : Stored τ) :
    s.put key e key = some e := by
  simp [Store.put]

theorem Store.put_other {τ : Type} (s : Store τ) (key k : String) (e : Stored τ) (h : k ≠ key) :
    s.put key e k = s k := by
  simp [Store.put, h]

@[simp] theorem Store.remove_same {τ : Type} (s : Store τ) (key : String) :
    s.remove key key = none := by
  simp [Store.remove]

theorem Store.remove_other {τ : Type} (s : Store τ) (key k : String) (h : k ≠ key) :
    s.remove key k = s k := by
  simp [Store.remove, h]

theorem Store.remove_absent {τ : Type} (s : Store τ) (key : String) (h : s key = none) :
    s.remove key = s := by
  funext k
  by_cases hk : k = key
  · subst hk; simp [h]
  · exact Store.remove_other s key k hk

theorem redisExists_absent {τ : Type} (s : Store τ) (key : String) (h : s key = none) :
    redisExists s key = 0 := by
  simp [redisExists, h]

theorem redisExists_present {τ : Type} (s : Store τ) (key : String) (e : Stored τ) (h : s key = some e) :
    redisExists s key = 1 := by
  simp [redisExists, h]

theorem redisExists_eq_zero_iff {τ : Type} (s : Store τ) (key : String) :
    redisExists s key = 0 ↔ s key = none := by
  unfold redisExists
  cases h : s key <;> simp

theorem redisDel_one {τ : Type} (s : Store τ) (key : String) :
    redisDel s [key] = (redisExists s key, s.remove key) := by
  simp [redisDel]

theorem redisExpire_absent {τ : Type} (s : Store τ) (key : String) (t : Int) (h : s key = none) :
    redisExpire s key t = s := by
  simp [redisExpire, h]

theorem getKey_absent (s : Store σ) (key : String) (h : s key = none) :
    getKey s key = ⟨404, .error "Key not found", s⟩ := by
  simp [getKey, redisExists_absent s key h]

theorem getKey_present (s : Store σ) (key : String) (e : Stored σ) (h : s key = some e) :
    getKey s key =
      ⟨200, .entry key (redisType s key) (readValue e.value) (redisTtl s key), s⟩ := by
  simp [getKey, redisExists_present s key e h, h]

/-! ## C5: creating a key that exists -/

/-- C5, as stated, fails: a create request for a key that exists but without a type is
answered 400, not 409, because the handler tests for a missing key or type before it
asks the store whether the key exists. -/
theorem createKey_existing_without_type :
    greetingStore "greeting" ≠ none ∧
    (createKey greetingStore ⟨some "greeting", none, .text "x", none⟩).map
      (fun r => (r.status, r.body)) = some (400, .error "Key and type are required") := by
  decide

/-- C5 (amended): for every store, every non-empty key bound in it and every create
request for that key that carries a non-empty type (one of the five or not), with any
value and ttl, the response is 409 `Key already exists` and the store is unchanged. -/
theorem createKey_existing_conflict (s : Store σ) (key type : String) (value : Payload σ)
    (ttl : Option Int) (hkey : key ≠ "") (htype : type ≠ "") (hbound : s key ≠ none) :
    createKey s ⟨some key, some type, value, ttl⟩ =
      some ⟨409, .error "Key already exists", s⟩ := by
  have hex : redisExists s key ≠ 0 := by
    rw [Ne, redisExists_eq_zero_iff]; exact hbound
  simp [createKey, falsy, hkey, htype, hex]

/-- C5 (amended), at a concrete store: creating `greeting` again as a list. -/
theorem createKey_existing_conflict_witness :
    ("greeting" : String) ≠ "" ∧ ("list" : String) ≠ "" ∧ greetingStore "greeting" ≠ none ∧
    createKey greetingStore ⟨some "greeting", some "list", .items ["a"], some 5⟩ =
      some ⟨409, .error "Key already exists", greetingStore⟩ :=
  ⟨by decide, by decide, by decide,
    createKey_existing_conflict greetingStore "greeting" "list" (.items ["a"]) (some 5)
      (by decide) (by decide) (by decide)⟩

/-! ## C7: delete -/

/-- C7: deleting a key that is not bound yields 404 and leaves the store unchanged;
deleting a key that is bound yields 200, after which a get of that key yields 404 and
every other key holds what it held. -/
theorem deleteKey_spec (s : Store σ) (key : String) :
    (s key = none →
      (deleteKey s key).status = 404 ∧ (deleteKey s key).store = s) ∧
    (s key ≠ none →
      (deleteKey s key).status = 200 ∧
      (getKey (deleteKey s key).store key).status = 404 ∧
      ∀ k, k ≠ key → (deleteKey s key).store k = s k) := by
  constructor
  · intro h
    simp [deleteKey, redisDel_one, redisExists_absent s key h, Store.remove_absent s key h]
  · intro h
    have hex : redisExists s key ≠ 0 := by
      rw [Ne, redisExists_eq_zero_iff]; exact h
    refine ⟨by simp [deleteKey, redisDel_one, hex], ?_, ?_⟩
    · simp [deleteKey, redisDel_one, hex, getKey_absent]
    · intro k hk
      simp [deleteKey, redisDel_one, hex, Store.remove_other s key k hk]

/-- C7 at concrete stores: `tags` is not bound in the empty store and is bound in
`tagsStore`. -/
theorem deleteKey_spec_witness :
    (emptyStore "tags" = none ∧ (deleteKey emptyStore "tags").status = 404 ∧
      (deleteKey emptyStore "tags").store = emptyStore) ∧
    (tagsStore "tags" ≠ none ∧ (deleteKey tagsStore "tags").status = 200 ∧
      (getKey (deleteKey tagsStore "tags").store "tags").status = 404) :=
  ⟨⟨rfl, (deleteKey_spec emptyStore "tags").1 rfl⟩,
    ⟨by decide, ((deleteKey_spec tagsStore "tags").2 (by decide)).1,
      ((deleteKey_spec tagsStore "tags").2 (by decide)).2.1⟩⟩

/-! ## C8: creating an empty collection -/

/-- C8: for every store, every non-empty key not bound in it, every ttl and every type
among list, set and zset, a create request whose value is the empty array or is missing
is answered 201 and leaves the store unchanged, so that a get of the key yields 404. -/
theorem createKey_empty_collection (s : Store σ) (key type : String) (value : Payload σ)
    (ttl : Option Int) (hkey : key ≠ "") (habsent : s key = none)
    (htype : type = "list" ∨ type = "set" ∨ type = "zset")
    (hvalue : value = .absent ∨ value = .items [] ∨ value = .scored []) :
    createKey s ⟨some key, some type, value, ttl⟩ =
      some ⟨201, .message "Key created successfully" key, s⟩ ∧
    getKey s key = ⟨404, .error "Key not found", s⟩ := by
  refine ⟨?_, getKey_absent s key habsent⟩
  have hex : redisExists s key = 0 := redisExists_absent s key habsent
  rcases htype with h | h | h <;> rcases hvalue with hv | hv | hv <;> subst h <;> subst hv <;>
    simp [createKey, createSwitch, falsy, hkey, hex, spreadItems, spreadScored,
      redisExpire_absent s key _ habsent]

/-- C8 at a concrete request: an empty list with a ttl of 30 seconds. -/
theorem createKey_empty_collection_witness :
    ("jobs" : String) ≠ "" ∧ emptyStore "jobs" = none ∧
    createKey emptyStore ⟨some "jobs", some "list", .items [], some 30⟩ =
      some ⟨201, .message "Key created successfully" "jobs", emptyStore⟩ ∧
    getKey emptyStore "jobs" = ⟨404, .error "Key not found", emptyStore⟩ :=
  ⟨by decide, rfl,
    createKey_empty_collection emptyStore "jobs" "list" (.items []) (some 30)
      (by decide) rfl (Or.inl rfl) (Or.inr (Or.inl rfl))⟩

/-! ## Facts about sets, hashes and sorted sets -/

theorem saddOne_mem (acc : List String) (x m : String) :
    m ∈ saddOne acc x ↔ m ∈ acc ∨ m = x := by
  unfold saddOne
  split
  · constructor
    · intro h; exact Or.inl h
    · rintro (h | h)
      · exact h
      · subst h; assumption
  · simp

theorem saddOne_nodup (acc : List String) (x : String) (h : acc.Nodup) :
    (saddOne acc x).Nodup := by
  unfold saddOne
  split
  · exact h
  · rename_i hx
    rw [List.nodup_append]
    refine ⟨h, List.nodup_singleton x, ?_⟩
    intro a ha hb
    simp at hb
    subst hb
    exact hx ha

theorem foldl_saddOne_mem (xs : List String) :
    ∀ (acc : List String) (m : String), m ∈ xs.foldl saddOne acc ↔ m ∈ acc ∨ m ∈ xs := by
  induction xs with
  | nil => intro acc m; simp
  | cons x xs ih =>
    intro acc m
    rw [List.foldl_cons, ih, saddOne_mem, List.mem_cons]
    tauto

theorem foldl_saddOne_nodup (xs : List String) :
    ∀ acc : List String, acc.Nodup → (xs.foldl saddOne acc).Nodup := by
  induction xs with
  | nil => intro acc h; exact h
  | cons x xs ih =>
    intro acc h
    exact ih _ (saddOne_nodup acc x h)

theorem hsetOne_fresh (acc : List (String × String)) (p : String × String)
    (h : p.1 ∉ acc.map Prod.fst) : hsetOne acc p = acc ++ [p] := by
  induction acc with
  | nil => rfl
  | cons q qs ih =>
    simp only [List.map_cons, List.mem_cons, not_or] at h
    have hq : ¬ q.1 = p.1 := fun e => h.1 e.symm
    simp [hsetOne, hq, ih h.2]

theorem foldl_hsetOne_fresh (fs : List (String × String)) :
    ∀ acc : List (String × String), ((acc ++ fs).map Prod.fst).Nodup →
      fs.foldl hsetOne acc = acc ++ fs := by
  induction fs with
  | nil => intro acc _; simp
  | cons p ps ih =>
    intro acc h
    have hp : p.1 ∉ acc.map Prod.fst := by
      intro hmem
      rw [List.map_append, List.nodup_append] at h
      exact h.2.2 hmem (by simp)
    rw [List.foldl_cons, hsetOne_fresh acc p hp, ih]
    · simp
    · simpa using h

theorem zinsert_perm (p : String × σ) (l : List (String × σ)) :
    (zinsert p l).Perm (p :: l) := by
  induction l with
  | nil => exact List.Perm.refl _
  | cons q qs ih =>
    unfold zinsert
    split
    · exact List.Perm.refl _
    · exact (List.Perm.cons q ih).trans (List.Perm.swap p q qs)

theorem filter_other_members {τ : Type} (acc : List (String × τ)) (p : String × τ)
    (h : p.1 ∉ acc.map Prod.fst) : acc.filter (fun q => q.1 ≠ p.1) = acc := by
  rw [List.filter_eq_self]
  intro q hq
  have : q.1 ≠ p.1 := by
    intro e
    exact h (e ▸ List.mem_map_of_mem Prod.fst hq)
  simpa using this

theorem zaddOne_perm (acc : List (String × σ)) (p : String × σ)
    (h : p.1 ∉ acc.map Prod.fst) : (zaddOne acc p).Perm (p :: acc) := by
  unfold zaddOne
  rw [filter_other_members acc p h]
  exact zinsert_perm p acc

theorem foldl_zaddOne_perm (ps : List (String × σ)) :
    ∀ acc : List (String × σ), ((acc ++ ps).map Prod.fst).Nodup →
      (ps.foldl zaddOne acc).Perm (acc ++ ps) := by
  induction ps with
  | nil => intro acc _; simp
  | cons p ps ih =>
    intro acc h
    have hp : p.1 ∉ acc.map Prod.fst := by
      intro hmem
      rw [List.map_append, List.nodup_append] at h
      exact h.2.2 hmem (by simp)
    have hperm : (zaddOne acc p ++ ps).Perm (acc ++ p :: ps) := by
      have h1 : (zaddOne acc p ++ ps).Perm ((p :: acc) ++ ps) :=
        List.Perm.append_right ps (zaddOne_perm acc p hp)
      exact h1.trans (List.perm_middle.symm)
    have hnd : ((zaddOne acc p ++ ps).map Prod.fst).Nodup :=
      ((hperm.map Prod.fst).nodup_iff).2 h
    rw [List.foldl_cons]
    exact (ih _ hnd).trans hperm

theorem zinsert_sorted (p : String × σ) (l : List (String × σ))
    (h : l.Pairwise (fun a b => a.2 ≤ b.2)) :
    (zinsert p l).Pairwise (fun a b => a.2 ≤ b.2) := by
  induction l with
  | nil => simp [zinsert]
  | cons q qs ih =>
    rw [List.pairwise_cons] at h
    unfold zinsert
    split
    · rename_i hle
      have hpq : p.2 ≤ q.2 := by
        simp only [zle, Bool.or_eq_true, Bool.and_eq_true, decide_eq_true_eq] at hle
        rcases hle with hlt | ⟨heq, _⟩
        · exact le_of_lt hlt
        · exact le_of_eq heq
      rw [List.pairwise_cons]
      refine ⟨?_, List.pairwise_cons.2 h⟩
      intro a ha
      rcases List.mem_cons.1 ha with rfl | ha
      · exact hpq
      · exact le_trans hpq (h.1 a ha)
    · rename_i hle
      have hqp : q.2 ≤ p.2 := by
        simp only [zle, Bool.or_eq_true, Bool.and_eq_true, decide_eq_true_eq, not_or] at hle
        exact not_lt.1 hle.1
      rw [List.pairwise_cons]
      refine ⟨?_, ih h.2⟩
      intro a ha
      rcases List.mem_cons.1 ((zinsert_perm p qs).subset ha) with rfl | ha
      · exact hqp
      · exact h.1 a ha

theorem foldl_zaddOne_sorted (ps : List (String × σ)) :
    ∀ acc : List (String × σ), acc.Pairwise (fun a b => a.2 ≤ b.2) →
      (ps.foldl zaddOne acc).Pairwise (fun a b => a.2 ≤ b.2) := by
  induction ps with
  | nil => intro acc h; exact h
  | cons p ps ih =>
    intro acc h
    rw [List.foldl_cons]
    apply ih
    unfold zaddOne
    exact zinsert_sorted p _ (h.sublist (List.filter_sublist _))

/-! ## Facts about the decimal printing of scores -/

theorem digitStep_digitChar (n d : Nat) (hd : d < 10) :
    digitStep (some n) (digitChar d) = some (10 * n + d) := by
  interval_cases d <;> rfl

theorem digitChar_ne_minus (d : Nat) (hd : d < 10) : digitChar d ≠ '-' := by
  interval_cases d <;> decide

theorem digitsLE_lt (fuel : Nat) : ∀ n d, d ∈ digitsLE fuel n → d < 10 := by
  induction fuel with
  | zero => intro n d h; simp [digitsLE] at h
  | succ f ih =>
    intro n d h
    unfold digitsLE at h
    split at h
    · simp at h; omega
    · rcases List.mem_cons.1 h with rfl | h
      · exact Nat.mod_lt _ (by decide)
      · exact ih _ _ h

theorem digitsLE_ne_nil (fuel n : Nat) : digitsLE (fuel + 1) n ≠ [] := by
  unfold digitsLE
  split <;> simp

theorem digitsLE_value (fuel : Nat) : ∀ n, n < fuel →
    (digitsLE fuel n).foldr (fun d acc => digitStep acc (digitChar d)) (some 0) = some n := by
  induction fuel with
  | zero => intro n h; omega
  | succ f ih =>
    intro n h
    unfold digitsLE
    split
    · rename_i hn
      simp [digitStep_digitChar 0 n hn]
    · rename_i hn
      rw [List.foldr_cons, ih (n / 10) (by omega),
        digitStep_digitChar (n / 10) (n % 10) (Nat.mod_lt _ (by decide))]
      congr 1
      omega

theorem decimal_ne_nil (n : Nat) : decimal n ≠ [] := by
  simp [decimal, digitsLE_ne_nil]

theorem decimal_head (n : Nat) (c : Char) (cs : List Char) (h : decimal n = c :: cs) :
    c ≠ '-' := by
  have hc : c ∈ decimal n := by rw [h]; simp
  simp only [decimal, List.mem_map, List.mem_reverse] at hc
  obtain ⟨d, hd, rfl⟩ := hc
  exact digitChar_ne_minus d (digitsLE_lt _ _ _ hd)

theorem parseDigits_decimal (n : Nat) : parseDigits (decimal n) = some n := by
  have hne := decimal_ne_nil n
  have hval : (decimal n).foldl digitStep (some 0) = some n := by
    unfold decimal
    rw [List.foldl_map, List.foldl_reverse]
    exact digitsLE_value (n + 1) n (Nat.lt_succ_self n)
  cases h : decimal n with
  | nil => exact absurd h hne
  | cons c cs =>
    rw [h] at hval
    exact hval

theorem SafeInt.ofInt_val (v : SafeInt) : SafeInt.ofInt v.val = some v := by
  unfold SafeInt.ofInt
  rw [dif_pos v.small]

theorem SafeInt.parseFloat_formatScore (v : SafeInt) :
    SafeInt.parseFloat (SafeInt.formatScore v) = some v := by
  unfold SafeInt.formatScore
  split
  · rename_i hv
    have hneg : -((v.val.natAbs : Nat) : Int) = v.val := by omega
    simp only [SafeInt.parseFloat, if_true, parseDigits_decimal, Option.some_bind, hneg,
      SafeInt.ofInt_val]
  · rename_i hv
    have hpos : ((v.val.natAbs : Nat) : Int) = v.val := by omega
    cases h : decimal v.val.natAbs with
    | nil => exact absurd h (decimal_ne_nil _)
    | cons c cs =>
      have hc := decimal_head _ c cs h
      simp only [SafeInt.parseFloat, h, if_neg hc]
      rw [← h, parseDigits_decimal]
      simp only [Option.some_bind, hpos, SafeInt.ofInt_val]

/-- On the safe integers `parseFloat` reads back the text the store prints. -/
theorem safeInt_reads_back (v : SafeInt) : parseFloat (formatScore v) = some v :=
  SafeInt.parseFloat_formatScore v

theorem zsetArray_withScores (hread : ∀ v : σ, parseFloat (formatScore v) = some v)
    (qs : List (String × σ)) :
    zsetArray (withScores qs) = qs.map (fun p => (p.1, some p.2)) := by
  induction qs with
  | nil => rfl
  | cons q qs ih => simp [withScores, zsetArray, hread, ih]

/-! ## Facts about the handlers -/

theorem redisType_bound {τ : Type} (s : Store τ) (key : String) (e : Stored τ) (h : s key = some e) :
    redisType s key = e.value.typeName := by
  simp [redisType, h]

theorem redisExpire_bound {τ : Type} (s : Store τ) (key : String) (t : Int) (e : Stored τ)
    (h : s key = some e) (ht : 0 < t) :
    redisExpire s key t key = some ⟨e.value, some t⟩ := by
  simp [redisExpire, h, ht]

theorem redisPersist_bound {τ : Type} (s : Store τ) (key : String) (e : Stored τ) (h : s key = some e) :
    redisPersist s key key = some ⟨e.value, none⟩ := by
  simp [redisPersist, h]

theorem ttlPositive_pos (ttl : Option Int) (h : ttlPositive ttl = true) :
    ∃ t, ttl = some t ∧ 0 < t := by
  cases ttl with
  | none => simp [ttlPositive] at h
  | some t => exact ⟨t, rfl, by simpa [ttlPositive] using h⟩

theorem shaped_type {τ : Type} (type : String) (value : Payload τ) (h : shaped type value) :
    type = "string" ∨ type = "list" ∨ type = "set" ∨ type = "zset" ∨ type = "hash" := by
  cases value with
  | absent => exact absurd h (by simp [shaped])
  | text v => exact Or.inl h
  | items xs => rcases h.1 with h | h <;> simp [h]
  | scored ps => simp [h.1]
  | fields fs => simp [h.1]

theorem shaped_type_ne {τ : Type} (type : String) (value : Payload τ)
    (h : shaped type value) :
    type ≠ "" := by
  rcases shaped_type type value h with h | h | h | h | h <;> subst h <;> decide

/-- The write of a create request for a sorted set with at least one pair. -/
theorem createSwitch_zset (s : Store σ) (key : String) (ps : List (String × σ))
    (ttl : Option Int) (habsent : s key = none) (hne : ps ≠ []) :
    createSwitch s key "zset" (.scored ps) ttl =
      some (.next (s.put key ⟨.zset (ps.foldl zaddOne []), none⟩)) := by
  cases ps with
  | nil => exact absurd rfl hne
  | cons p ps => simp [createSwitch, spreadScored, redisZadd, habsent, Step.ofReply]

/-- The write of a create request whose value has the shape of the type binds the key
to that value. -/
theorem createSwitch_shaped (s : Store σ) (key type : String) (value : Payload σ)
    (ttl : Option Int) (habsent : s key = none) (hshape : shaped type value) :
    ∃ e : Stored σ, createSwitch s key type value ttl = some (.next (s.put key e)) ∧
      e.value.typeName = type ∧
      ((∀ v : σ, parseFloat (formatScore v) = some v) →
        sameValue type value (readValue e.value)) := by
  cases value with
  | absent => exact absurd hshape (by simp [shaped])
  | text v =>
    have ht : type = "string" := hshape
    subst ht
    by_cases hp : ttlPositive ttl = true
    · exact ⟨⟨.string v, some (ttl.getD 0)⟩,
        by simp [createSwitch, orEmpty, hp, redisSetex], rfl, fun _ => rfl⟩
    · exact ⟨⟨.string v, none⟩,
        by simp [createSwitch, orEmpty, hp, redisSet], rfl, fun _ => rfl⟩
  | items xs =>
    obtain ⟨ht, hne⟩ := hshape
    cases xs with
    | nil => exact absurd rfl hne
    | cons x xs =>
      rcases ht with ht | ht <;> subst ht
      · exact ⟨⟨.list (x :: xs), none⟩,
          by simp [createSwitch, spreadItems, redisRpush, habsent, Step.ofReply], rfl,
          fun _ => by simp [sameValue, readValue]⟩
      · refine ⟨⟨.set ((x :: xs).foldl saddOne []), none⟩,
          by simp [createSwitch, spreadItems, redisSadd, habsent, Step.ofReply], rfl, ?_⟩
        intro _
        have hnd := foldl_saddOne_nodup (x :: xs) [] List.nodup_nil
        have hmem := fun m => foldl_saddOne_mem (x :: xs) [] m
        simp only [sameValue, readValue]
        rw [if_neg (by decide)]
        exact ⟨hnd, fun m => by rw [hmem m]; simp⟩
  | scored ps =>
    obtain ⟨ht, hne, hnd⟩ := hshape
    subst ht
    refine ⟨⟨.zset (ps.foldl zaddOne []), none⟩,
      createSwitch_zset s key ps ttl habsent hne, rfl, ?_⟩
    intro hread
    simp only [sameValue, readValue, zsetArray_withScores hread]
    exact (foldl_zaddOne_perm ps [] (by simpa using hnd)).map _
  | fields fs =>
    obtain ⟨ht, hne, hnd⟩ := hshape
    subst ht
    cases fs with
    | nil => exact absurd rfl hne
    | cons f fs =>
      refine ⟨⟨.hash ((f :: fs).foldl hsetOne []), none⟩,
        by simp [createSwitch, objectArg, redisHmset, habsent, Step.ofReply], rfl, ?_⟩
      intro _
      simp only [sameValue, readValue]
      rw [foldl_hsetOne_fresh (f :: fs) [] (by simpa using hnd)]
      simp

/-- Past the type switch, a create request is answered 201 and the ttl step keeps the
value the switch wrote. -/
theorem createKey_next (s s1 : Store σ) (key type : String) (value : Payload σ)
    (ttl : Option Int) (e : Stored σ) (hkey : key ≠ "") (htype : type ≠ "")
    (habsent : s key = none) (hswitch : createSwitch s key type value ttl = some (.next s1))
    (hbound : s1 key = some e) :
    ∃ r x, createKey s ⟨some key, some type, value, ttl⟩ = some r ∧ r.status = 201 ∧
      r.body = .message "Key created successfully" key ∧
      r.store key = some ⟨e.value, x⟩ := by
  have hex : redisExists s key = 0 := redisExists_absent s key habsent
  have hrun : createKey s ⟨some key, some type, value, ttl⟩ =
      some ⟨201, .message "Key created successfully" key,
        if (ttlPositive ttl && decide (type ≠ "string")) = true
          then redisExpire s1 key (ttl.getD 0) else s1⟩ := by
    simp [createKey, falsy, hkey, htype, hex, hswitch]
  by_cases hc : (ttlPositive ttl && decide (type ≠ "string")) = true
  · obtain ⟨t, ht, hpos⟩ := ttlPositive_pos ttl (by
      simp only [Bool.and_eq_true] at hc; exact hc.1)
    refine ⟨_, some t, hrun, rfl, rfl, ?_⟩
    show (if (ttlPositive ttl && decide (type ≠ "string")) = true
      then redisExpire s1 key (ttl.getD 0) else s1) key = _
    rw [if_pos hc, ht]
    exact redisExpire_bound s1 key t e hbound hpos
  · refine ⟨_, e.expire, hrun, rfl, rfl, ?_⟩
    show (if (ttlPositive ttl && decide (type ≠ "string")) = true
      then redisExpire s1 key (ttl.getD 0) else s1) key = _
    rw [if_neg hc]
    exact hbound

/-! ## C1: create, then get -/

/-- C1, as stated, fails: the empty array is a value of the list shape, yet creating a
list from it is answered 201 without binding the key, and the get that follows is
answered 404 instead of returning an Entry. -/
theorem create_empty_list_then_get :
    emptyStore "jobs" = none ∧
    (createKey emptyStore ⟨some "jobs", some "list", .items [], none⟩).map
      (fun r => (r.status, (getKey r.store "jobs").status, (getKey r.store "jobs").body)) =
      some (201, 404, .error "Key not found") := by
  decide

/-- C1 (amended): for every store, every non-empty key not bound in it, every ttl and
every value of the shape of one of the five types that, for list, set, zset and hash,
has at least one element, the create request is answered 201 and the get that follows
is answered 200 with an Entry of the same type and the same value: the same string, the
same list, the same set of members, the same de-interleaved `{member, score}` pairs,
the same fields.  The scores are any numbers; the comparison of a zset reads the scores
with `parseFloat`, which reads back the text the store prints (`hread`). -/
theorem create_then_get (hread : ∀ v : σ, parseFloat (formatScore v) = some v)
    (s : Store σ) (key type : String) (value : Payload σ)
    (ttl : Option Int) (hkey : key ≠ "") (habsent : s key = none)
    (hshape : shaped type value) :
    ∃ r w t, createKey s ⟨some key, some type, value, ttl⟩ = some r ∧ r.status = 201 ∧
      (getKey r.store key).status = 200 ∧
      (getKey r.store key).body = .entry key type w t ∧
      sameValue type value w := by
  obtain ⟨e, hswitch, htn, hsame⟩ := createSwitch_shaped s key type value ttl habsent hshape
  obtain ⟨r, x, hrun, hstatus, _, hstore⟩ :=
    createKey_next s (s.put key e) key type value ttl e hkey
      (shaped_type_ne type value hshape) habsent hswitch (Store.put_same s key e)
  refine ⟨r, readValue e.value, redisTtl r.store key, hrun, hstatus, ?_, ?_, hsame hread⟩
  · rw [getKey_present r.store key _ hstore]
  · rw [getKey_present r.store key _ hstore, redisType_bound r.store key _ hstore, htn]

/-- C1 (amended) on the scenario of the specification: the hash `u1` with the fields
`name` and `age`, created with ttl -1, is read back with the same fields and ttl -1. -/
theorem create_then_get_witness :
    ((∀ v : SafeInt, parseFloat (formatScore v) = some v) ∧
      ("u1" : String) ≠ "" ∧ emptyStore "u1" = none ∧
      shaped "hash" (.fields [("name", "Bob"), ("age", "30")] : Payload SafeInt)) ∧
    (∃ r w t, createKey emptyStore
        ⟨some "u1", some "hash", .fields [("name", "Bob"), ("age", "30")], some (-1)⟩ = some r ∧
      r.status = 201 ∧ (getKey r.store "u1").status = 200 ∧
      (getKey r.store "u1").body = .entry "u1" "hash" w t ∧
      sameValue "hash" (.fields [("name", "Bob"), ("age", "30")] : Payload SafeInt) w) ∧
    (createKey emptyStore
        ⟨some "u1", some "hash", .fields [("name", "Bob"), ("age", "30")], some (-1)⟩).map
      (fun r => (r.status, (getKey r.store "u1").body)) =
      some (201, .entry "u1" "hash" (.object [("name", "Bob"), ("age", "30")]) (-1)) :=
  ⟨⟨safeInt_reads_back, by decide, rfl, rfl, by decide, by decide⟩,
    create_then_get safeInt_reads_back emptyStore "u1" "hash"
      (.fields [("name", "Bob"), ("age", "30")]) (some (-1)) (by decide) rfl
      ⟨rfl, by decide, by decide⟩,
    by decide⟩

/-! ## C9: the wire format of a sorted set -/

/-- C9: for every store, every key not bound in it and every non-empty list of
`{member, score}` pairs with distinct members, creating a zset from the list is answered
201 and the get that follows returns the flat alternating sequence
`member1, score1, member2, score2, ...` of those pairs ordered by score, each score in
the text the store prints for it; the de-interleaving loop of the client, which reads
each score with `parseFloat`, rebuilds exactly those pairs from it.  The key is not the
empty string, which the handler reads as a missing key; the scores are any numbers, and
`parseFloat` reads back the text the store prints (`hread`). -/
theorem create_zset_then_get (hread : ∀ v : σ, parseFloat (formatScore v) = some v)
    (s : Store σ) (key : String) (ps : List (String × σ))
    (ttl : Option Int) (hkey : key ≠ "") (habsent : s key = none) (hne : ps ≠ [])
    (hnd : (ps.map Prod.fst).Nodup) :
    ∃ r qs t, createKey s ⟨some key, some "zset", .scored ps, ttl⟩ = some r ∧
      r.status = 201 ∧ (getKey r.store key).status = 200 ∧
      (getKey r.store key).body = .entry key "zset" (.items (withScores qs)) t ∧
      qs.Perm ps ∧ qs.Pairwise (fun a b => a.2 ≤ b.2) ∧
      zsetArray (withScores qs) = qs.map (fun p => (p.1, some p.2)) := by
  obtain ⟨r, x, hrun, hstatus, _, hstore⟩ :=
    createKey_next s (s.put key ⟨.zset (ps.foldl zaddOne []), none⟩) key "zset" (.scored ps)
      ttl ⟨.zset (ps.foldl zaddOne []), none⟩ hkey (by decide) habsent
      (createSwitch_zset s key ps ttl habsent hne) (Store.put_same s key _)
  refine ⟨r, ps.foldl zaddOne [], redisTtl r.store key, hrun, hstatus, ?_, ?_,
    foldl_zaddOne_perm ps [] (by simpa using hnd),
    foldl_zaddOne_sorted ps [] List.Pairwise.nil, zsetArray_withScores hread _⟩
  · rw [getKey_present r.store key _ hstore]
  · rw [getKey_present r.store key _ hstore, redisType_bound r.store key _ hstore]
    rfl

/-- C9 on the scenario of the specification: the zset `s1` made of `{a, 1}` and
`{b, 2}` is read back as `a, 1, b, 2`, which the client rebuilds as `{a, 1}`, `{b, 2}`;
sent as `{b, 2}`, `{a, 1}` it is read back in the same order, by score. -/
theorem create_zset_then_get_witness :
    ((∀ v : SafeInt, parseFloat (formatScore v) = some v) ∧
      ("s1" : String) ≠ "" ∧ emptyStore "s1" = none ∧
      [("a", scoreOne), ("b", scoreTwo)] ≠ [] ∧
      ([("a", scoreOne), ("b", scoreTwo)].map Prod.fst).Nodup) ∧
    (∃ r qs t, createKey emptyStore
        ⟨some "s1", some "zset", .scored [("a", scoreOne), ("b", scoreTwo)], none⟩ = some r ∧
      r.status = 201 ∧ (getKey r.store "s1").status = 200 ∧
      (getKey r.store "s1").body = .entry "s1" "zset" (.items (withScores qs)) t ∧
      qs.Perm [("a", scoreOne), ("b", scoreTwo)] ∧ qs.Pairwise (fun a b => a.2 ≤ b.2) ∧
      zsetArray (withScores qs) = qs.map (fun p => (p.1, some p.2))) ∧
    (createKey emptyStore
        ⟨some "s1", some "zset", .scored [("a", scoreOne), ("b", scoreTwo)], none⟩).map
      (fun r => (getKey r.store "s1").body) =
      some (.entry "s1" "zset" (.items ["a", "1", "b", "2"]) (-1)) ∧
    (createKey emptyStore
        ⟨some "s1", some "zset", .scored [("b", scoreTwo), ("a", scoreOne)], none⟩).map
      (fun r => (getKey r.store "s1").body) =
      some (.entry "s1" "zset" (.items ["a", "1", "b", "2"]) (-1)) ∧
    zsetArray ["a", "1", "b", "2"] = [("a", some scoreOne), ("b", some scoreTwo)] :=
  ⟨⟨safeInt_reads_back, by decide, rfl, by decide, by decide⟩,
    create_zset_then_get safeInt_reads_back emptyStore "s1"
      [("a", scoreOne), ("b", scoreTwo)] none (by decide) rfl (by decide) (by decide),
    by decide, by decide, by decide⟩

/-! ## Facts about the update handler -/

theorem updateTtl_unbound {τ : Type} (s : Store τ) (key : String) (ttl : Option Int) (h : s key = none) :
    updateTtl s key ttl = s := by
  unfold updateTtl
  split
  · exact redisExpire_absent s key _ h
  · split
    · simp [redisPersist, h]
    · rfl

theorem updateTtl_bound {τ : Type} (s : Store τ) (key : String) (ttl : Option Int) (e : Stored τ)
    (h : s key = some e) :
    updateTtl s key ttl key =
      some ⟨e.value, if ttlPositive ttl = true then ttl
        else if ttl = some (-1) then none else e.expire⟩ := by
  unfold updateTtl
  by_cases hp : ttlPositive ttl = true
  · obtain ⟨t, ht, hpos⟩ := ttlPositive_pos ttl hp
    rw [if_pos hp, if_pos hp, ht]
    exact redisExpire_bound s key t e h hpos
  · rw [if_neg hp, if_neg hp]
    by_cases hm : ttl = some (-1)
    · rw [if_pos hm, if_pos hm]
      exact redisPersist_bound s key e h
    · rw [if_neg hm, if_neg hm]
      exact h

theorem updateSwitch_collection (s : Store σ) (key type : String) (value : Payload σ)
    (ttl : Option Int) (h : type ≠ "string") :
    updateSwitch s key type value = createSwitch (s.remove key) key type value ttl := by
  simp [updateSwitch, createSwitch, h, redisDel_one]

/-- The write of an update request whose value has the shape of the type of the key
binds the key to that value. -/
theorem updateSwitch_shaped (s : Store σ) (key : String) (value : Payload σ)
    (hshape : shaped (redisType s key) value) :
    ∃ s1 e, updateSwitch s key (redisType s key) value = some (.next s1) ∧
      s1 key = some e ∧ e.value.typeName = redisType s key ∧
      ((∀ v : σ, parseFloat (formatScore v) = some v) →
        sameValue (redisType s key) value (readValue e.value)) := by
  by_cases hs : redisType s key = "string"
  · rw [hs] at hshape ⊢
    cases value with
    | text v =>
      exact ⟨_, ⟨.string v, none⟩, by simp [updateSwitch, orEmpty]; rfl,
        by simp [redisSet], rfl, fun _ => rfl⟩
    | absent => exact absurd hshape (by simp [shaped])
    | items xs => exact absurd hshape.1 (by decide)
    | scored ps => exact absurd hshape.1 (by decide)
    | fields fs => exact absurd hshape.1 (by decide)
  · obtain ⟨e, hswitch, htn, hsame⟩ :=
      createSwitch_shaped (s.remove key) key (redisType s key) value none
        (Store.remove_same s key) hshape
    exact ⟨_, e, by rw [updateSwitch_collection s key _ value none hs]; exact hswitch,
      Store.put_same _ key e, htn, hsame⟩

theorem rpush_next {τ : Type} (s0 s1 : Store τ) (key : String) (xs : List String) (h0 : s0 key = none)
    (h : Step.ofReply s0 (redisRpush s0 key xs) = .next s1) :
    ∃ v, s1 key = some ⟨v, none⟩ ∧ v.typeName = "list" := by
  cases xs with
  | nil => simp [redisRpush, Step.ofReply] at h
  | cons x xs =>
    simp only [redisRpush, h0, Step.ofReply, Step.next.injEq] at h
    subst h
    exact ⟨_, Store.put_same s0 key _, rfl⟩

theorem sadd_next {τ : Type} (s0 s1 : Store τ) (key : String) (xs : List String) (h0 : s0 key = none)
    (h : Step.ofReply s0 (redisSadd s0 key xs) = .next s1) :
    ∃ v, s1 key = some ⟨v, none⟩ ∧ v.typeName = "set" := by
  cases xs with
  | nil => simp [redisSadd, Step.ofReply] at h
  | cons x xs =>
    simp only [redisSadd, h0, Step.ofReply, Step.next.injEq] at h
    subst h
    exact ⟨_, Store.put_same s0 key _, rfl⟩

theorem zadd_next (s0 s1 : Store σ) (key : String) (ps : List (String × σ))
    (h0 : s0 key = none) (h : Step.ofReply s0 (redisZadd s0 key ps) = .next s1) :
    ∃ v, s1 key = some ⟨v, none⟩ ∧ v.typeName = "zset" := by
  cases ps with
  | nil => simp [redisZadd, Step.ofReply] at h
  | cons x xs =>
    simp only [redisZadd, h0, Step.ofReply, Step.next.injEq] at h
    subst h
    exact ⟨_, Store.put_same s0 key _, rfl⟩

theorem hmset_next {τ : Type} (s0 s1 : Store τ) (key : String) (fs : List (String × String))
    (h0 : s0 key = none) (h : Step.ofReply s0 (redisHmset s0 key fs) = .next s1) :
    ∃ v, s1 key = some ⟨v, none⟩ ∧ v.typeName = "hash" := by
  cases fs with
  | nil => simp [redisHmset, Step.ofReply] at h
  | cons x xs =>
    simp only [redisHmset, h0, Step.ofReply, Step.next.injEq] at h
    subst h
    exact ⟨_, Store.put_same s0 key _, rfl⟩

/-- Whatever the value of an update request, the type switch leaves the key unbound or
bound to a persistent value of the type it had. -/
theorem updateSwitch_next (s s1 : Store σ) (key : String) (value : Payload σ) (e : Stored σ)
    (hbound : s key = some e)
    (hswitch : updateSwitch s key (redisType s key) value = some (.next s1)) :
    s1 key = none ∨ ∃ v, s1 key = some ⟨v, none⟩ ∧ v.typeName = redisType s key := by
  rw [redisType_bound s key e hbound] at hswitch ⊢
  obtain ⟨v, x⟩ := e
  have hrem : s.remove key key = none := Store.remove_same s key
  cases v with
  | string old =>
    simp only [RedisValue.typeName, updateSwitch, if_true] at hswitch ⊢
    cases ha : orEmpty value with
    | none => simp [ha] at hswitch
    | some w =>
      simp only [ha, Option.map_some', Option.some.injEq, Step.next.injEq] at hswitch
      subst hswitch
      exact Or.inr ⟨_, Store.put_same s key _, rfl⟩
  | list old =>
    simp only [RedisValue.typeName, updateSwitch, redisDel_one, String.reduceEq, if_true,
      if_false] at hswitch ⊢
    cases ha : spreadItems value with
    | none => simp [ha] at hswitch
    | some a =>
      simp only [ha, Option.map_some', Option.some.injEq] at hswitch
      cases a with
      | none =>
        simp only [Step.next.injEq] at hswitch
        subst hswitch
        exact Or.inl hrem
      | some xs => exact Or.inr (rpush_next _ s1 key xs hrem hswitch)
  | set old =>
    simp only [RedisValue.typeName, updateSwitch, redisDel_one, String.reduceEq, if_true,
      if_false] at hswitch ⊢
    cases ha : spreadItems value with
    | none => simp [ha] at hswitch
    | some a =>
      simp only [ha, Option.map_some', Option.some.injEq] at hswitch
      cases a with
      | none =>
        simp only [Step.next.injEq] at hswitch
        subst hswitch
        exact Or.inl hrem
      | some xs => exact Or.inr (sadd_next _ s1 key xs hrem hswitch)
  | zset old =>
    simp only [RedisValue.typeName, updateSwitch, redisDel_one, String.reduceEq, if_true,
      if_false] at hswitch ⊢
    cases ha : spreadScored value with
    | none => simp [ha] at hswitch
    | some a =>
      simp only [ha, Option.map_some', Option.some.injEq] at hswitch
      cases a with
      | none =>
        simp only [Step.next.injEq] at hswitch
        subst hswitch
        exact Or.inl hrem
      | some xs => exact Or.inr (zadd_next _ s1 key xs hrem hswitch)
  | hash old =>
    simp only [RedisValue.typeName, updateSwitch, redisDel_one, String.reduceEq, if_true,
      if_false] at hswitch ⊢
    cases ha : objectArg value with
    | none => simp [ha] at hswitch
    | some a =>
      simp only [ha, Option.map_some', Option.some.injEq] at hswitch
      cases a with
      | none =>
        simp only [Step.next.injEq] at hswitch
        subst hswitch
        exact Or.inl hrem
      | some xs => exact Or.inr (hmset_next _ s1 key xs hrem hswitch)

theorem updateKey_run (s s1 : Store σ) (key : String) (value : Payload σ) (ttl : Option Int)
    (hbound : s key ≠ none)
    (hswitch : updateSwitch s key (redisType s key) value = some (.next s1)) :
    updateKey s key ⟨value, ttl⟩ =
      some ⟨200, .message "Key updated successfully" key, updateTtl s1 key ttl⟩ := by
  have hex : redisExists s key ≠ 0 := by
    rw [Ne, redisExists_eq_zero_iff]; exact hbound
  simp [updateKey, hex, hswitch]

theorem updateKey_ok (s : Store σ) (key : String) (req : UpdateRequest σ) (r : Result σ)
    (hbound : s key ≠ none) (hrun : updateKey s key req = some r) (hstatus : r.status = 200) :
    ∃ s1, updateSwitch s key (redisType s key) req.value = some (.next s1) ∧
      r.store = updateTtl s1 key req.ttl := by
  have hex : redisExists s key ≠ 0 := by
    rw [Ne, redisExists_eq_zero_iff]; exact hbound
  unfold updateKey at hrun
  rw [if_neg hex] at hrun
  cases hsw : updateSwitch s key (redisType s key) req.value with
  | none => simp [hsw] at hrun
  | some step =>
    rw [hsw] at hrun
    cases step with
    | next s1 =>
      simp only [Option.map_some', Option.some.injEq] at hrun
      exact ⟨s1, rfl, by rw [← hrun]⟩
    | thrown msg s1 =>
      simp only [Option.map_some', Option.some.injEq] at hrun
      rw [← hrun] at hstatus
      simp at hstatus
    | invalid =>
      simp only [Option.map_some', Option.some.injEq] at hrun
      rw [← hrun] at hstatus
      simp at hstatus

theorem bound_of_redisType {τ : Type} (s : Store τ) (key : String) (h : redisType s key ≠ "none") :
    s key ≠ none := by
  intro hn
  exact h (by simp [redisType, hn])

theorem shaped_bound {τ : Type} (s : Store τ) (key : String) (value : Payload τ)
    (h : shaped (redisType s key) value) : s key ≠ none := by
  apply bound_of_redisType
  intro hn
  rcases shaped_type _ value h with h | h | h | h | h <;> rw [hn] at h <;>
    exact absurd h (by decide)

/-- After an update answered 200 the key is unbound, or bound to a value of the type it
had, with the positive ttl of the request as time-to-live and persistent otherwise. -/
theorem updateKey_store (s : Store σ) (key : String) (value : Payload σ) (ttl : Option Int)
    (r : Result σ) (hbound : s key ≠ none) (hrun : updateKey s key ⟨value, ttl⟩ = some r)
    (hstatus : r.status = 200) :
    r.store key = none ∨
      ∃ v, r.store key = some ⟨v, if ttlPositive ttl = true then ttl else none⟩ ∧
        v.typeName = redisType s key := by
  obtain ⟨s1, hswitch, hstore⟩ := updateKey_ok s key ⟨value, ttl⟩ r hbound hrun hstatus
  cases he : s key with
  | none => exact absurd he hbound
  | some e =>
    rcases updateSwitch_next s s1 key value e he hswitch with h1 | ⟨v, h1, htn⟩
    · left
      rw [hstore, updateTtl_unbound s1 key _ h1]
      exact h1
    · right
      refine ⟨v, ?_, htn⟩
      rw [hstore, updateTtl_bound s1 key ttl _ h1]
      by_cases hp : ttlPositive ttl = true
      · simp [hp]
      · simp [hp]

/-- An update whose value has the shape of the type of the key is answered 200 and
binds the key to that value. -/
theorem updateKey_shaped (s : Store σ) (key : String) (value : Payload σ) (ttl : Option Int)
    (hshape : shaped (redisType s key) value) :
    ∃ r v, updateKey s key ⟨value, ttl⟩ = some r ∧ r.status = 200 ∧
      r.store key = some ⟨v, if ttlPositive ttl = true then ttl else none⟩ ∧
      v.typeName = redisType s key ∧
      ((∀ v : σ, parseFloat (formatScore v) = some v) →
        sameValue (redisType s key) value (readValue v)) := by
  have hbound := shaped_bound s key value hshape
  obtain ⟨s1, e, hswitch, h1, htn, hsame⟩ := updateSwitch_shaped s key value hshape
  have hrun := updateKey_run s s1 key value ttl hbound hswitch
  refine ⟨_, e.value, hrun, rfl, ?_, htn, hsame⟩
  rcases updateKey_store s key value ttl _ hbound hrun rfl with h | ⟨v, h, _⟩
  · have h2 := updateTtl_bound s1 key ttl e h1
    rw [show (⟨200, Body.message "Key updated successfully" key,
      updateTtl s1 key ttl⟩ : Result σ).store = updateTtl s1 key ttl from rfl] at h
    rw [h] at h2
    exact absurd h2 (by simp)
  · have h2 := updateTtl_bound s1 key ttl e h1
    rw [show (⟨200, Body.message "Key updated successfully" key,
      updateTtl s1 key ttl⟩ : Result σ).store = updateTtl s1 key ttl from rfl] at h ⊢
    rw [h] at h2
    rw [h]
    simp only [Option.some.injEq, Stored.mk.injEq] at h2
    rw [h2.1]

/-! ## C2: an update replaces the members -/

/-- C2: for every store, every key bound in it to a list, set, zset or hash, every ttl
and every non-empty new value of that shape, the update is answered 200 and the get that
follows returns an Entry of the same type whose value holds exactly the members of the
new value, whatever the key held before.  The scores of a zset are any numbers; its
members are compared as de-interleaved `{member, score}` pairs, read with `parseFloat`,
which reads back the text the store prints (`hread`). -/
theorem update_replaces (hread : ∀ v : σ, parseFloat (formatScore v) = some v)
    (s : Store σ) (key type : String) (value : Payload σ)
    (ttl : Option Int) (htype : redisType s key = type)
    (hcoll : type = "list" ∨ type = "set" ∨ type = "zset" ∨ type = "hash")
    (hshape : shaped type value) :
    ∃ r w t, updateKey s key ⟨value, ttl⟩ = some r ∧ r.status = 200 ∧
      (getKey r.store key).status = 200 ∧
      (getKey r.store key).body = .entry key type w t ∧
      sameValue type value w := by
  subst htype
  obtain ⟨r, v, hrun, hstatus, hstore, htn, hsame⟩ := updateKey_shaped s key value ttl hshape
  refine ⟨r, readValue v, redisTtl r.store key, hrun, hstatus, ?_, ?_, hsame hread⟩
  · rw [getKey_present r.store key _ hstore]
  · rw [getKey_present r.store key _ hstore, redisType_bound r.store key _ hstore, htn]

/-- C2 on the example of the specification: updating the set `{a, b, c}` to `{x}`
leaves exactly `{x}`. -/
theorem update_replaces_witness :
    ((∀ v : SafeInt, parseFloat (formatScore v) = some v) ∧
      redisType tagsStore "tags" = "set" ∧
      (("set" : String) = "list" ∨ ("set" : String) = "set" ∨ ("set" : String) = "zset" ∨
        ("set" : String) = "hash") ∧
      shaped "set" (.items ["x"] : Payload SafeInt)) ∧
    (∃ r w t, updateKey tagsStore "tags" ⟨.items ["x"], none⟩ = some r ∧ r.status = 200 ∧
      (getKey r.store "tags").status = 200 ∧
      (getKey r.store "tags").body = .entry "tags" "set" w t ∧
      sameValue "set" (.items ["x"] : Payload SafeInt) w) ∧
    (getKey tagsStore "tags").body = .entry "tags" "set" (.items ["a", "b", "c"]) (-1) ∧
    (updateKey tagsStore "tags" ⟨.items ["x"], none⟩).map
      (fun r => (r.status, (getKey r.store "tags").body)) =
      some (200, .entry "tags" "set" (.items ["x"]) (-1)) :=
  ⟨⟨safeInt_reads_back, by decide, by decide, Or.inr (by decide), by decide⟩,
    update_replaces safeInt_reads_back tagsStore "tags" "set" (.items ["x"]) none (by decide)
      (Or.inr (Or.inl rfl)) ⟨Or.inr rfl, by decide⟩,
    by decide, by decide⟩

/-! ## C3: an update without a ttl -/

/-- C3, which the code breaks: the string `greeting` has 100 seconds to live and is
updated without a ttl, so that by the claim it keeps its time-to-live; the handler
answers 200 and leaves the key persistent, because `SET` discards the time-to-live
before the ttl branch, which then issues no command.  Likewise the list `queue`, with 60
seconds to live, is persistent after an update with ttl 0, because it is deleted and
rebuilt. -/
theorem update_without_ttl_drops_expiration :
    redisTtl greetingStore "greeting" = 100 ∧
    (updateKey greetingStore "greeting" ⟨.text "hi", none⟩).map
      (fun r => (r.status, redisTtl r.store "greeting")) = some (200, -1) ∧
    redisTtl queueStore "queue" = 60 ∧
    (updateKey queueStore "queue" ⟨.items ["z"], some 0⟩).map
      (fun r => (r.status, redisTtl r.store "queue")) = some (200, -1) := by
  decide

/-! ## C4: an update with a ttl -/

/-- C4, as stated, fails: updating the list `queue` with an empty array is answered 200
and removes the key, so the get that follows is answered 404 and reports no ttl,
whether the request carries ttl -1 or a positive ttl. -/
theorem update_empty_then_get_ttl :
    queueStore "queue" ≠ none ∧
    (updateKey queueStore "queue" ⟨.items [], some (-1)⟩).map
      (fun r => (r.status, (getKey r.store "queue").status, (getKey r.store "queue").body)) =
      some (200, 404, .error "Key not found") ∧
    (updateKey queueStore "queue" ⟨.items [], some 30⟩).map
      (fun r => (r.status, (getKey r.store "queue").status, (getKey r.store "queue").body)) =
      some (200, 404, .error "Key not found") := by
  decide

/-- C4 (amended): for every store, every key bound in it and every update request:
whenever the update is answered 200 and leaves the key bound, the get that follows
reports ttl -1 when the ttl of the request is -1, whatever expiration the key had, and
reports the ttl of the request when that is positive; and an update whose value has the
shape of the type of the key is answered 200 and leaves the key bound. -/
theorem update_with_ttl (s : Store σ) (key : String) (value : Payload σ) (ttl : Option Int)
    (hbound : s key ≠ none) :
    (∀ r, updateKey s key ⟨value, ttl⟩ = some r → r.status = 200 → r.store key ≠ none →
      ∃ w t, getKey r.store key = ⟨200, .entry key (redisType s key) w t, r.store⟩ ∧
        (ttl = some (-1) → t = -1) ∧ (∀ n, ttl = some n → 0 < n → t = n ∧ 0 < t)) ∧
    (shaped (redisType s key) value →
      ∃ r, updateKey s key ⟨value, ttl⟩ = some r ∧ r.status = 200 ∧ r.store key ≠ none) := by
  constructor
  · intro r hrun hstatus hkept
    rcases updateKey_store s key value ttl r hbound hrun hstatus with h | ⟨v, h, htn⟩
    · exact absurd h hkept
    · refine ⟨readValue v, redisTtl r.store key, ?_, ?_, ?_⟩
      · rw [getKey_present r.store key _ h, redisType_bound r.store key _ h, htn]
      · intro hm
        subst hm
        simp [redisTtl, h, ttlPositive]
      · intro n hn hpos
        subst hn
        have : redisTtl r.store key = n := by simp [redisTtl, h, ttlPositive, hpos]
        exact ⟨this, by rw [this]; exact hpos⟩
  · intro hshape
    obtain ⟨r, v, hrun, hstatus, hstore, _, _⟩ := updateKey_shaped s key value ttl hshape
    exact ⟨r, hrun, hstatus, by simp [hstore]⟩

/-- C4 (amended) at a concrete store: `queue`, with 60 seconds to live, updated to
`[z]` with ttl -1 and with ttl 30. -/
theorem update_with_ttl_witness :
    (queueStore "queue" ≠ none ∧
      shaped (redisType queueStore "queue") (.items ["z"] : Payload SafeInt)) ∧
    (∃ r, updateKey queueStore "queue" ⟨.items ["z"], some (-1)⟩ = some r ∧ r.status = 200 ∧
      r.store "queue" ≠ none) ∧
    (updateKey queueStore "queue" ⟨.items ["z"], some (-1)⟩).map
      (fun r => (getKey r.store "queue").body) =
      some (.entry "queue" "list" (.items ["z"]) (-1)) ∧
    (updateKey queueStore "queue" ⟨.items ["z"], some 30⟩).map
      (fun r => (getKey r.store "queue").body) =
      some (.entry "queue" "list" (.items ["z"]) 30) :=
  ⟨⟨by decide, Or.inl (by decide), by decide⟩,
    (update_with_ttl queueStore "queue" (.items ["z"]) (some (-1)) (by decide)).2
      ⟨Or.inl (by decide), by decide⟩,
    by decide, by decide⟩

/-! ## C6: the type of a key -/

/-- C6, as stated, fails: updating the set `tags` with an empty array is answered 200
and the key no longer exists afterwards. -/
theorem update_empty_removes_key :
    tagsStore "tags" ≠ none ∧
    (updateKey tagsStore "tags" ⟨.items [], none⟩).map
      (fun r => (r.status, (r.store "tags").isSome, (getKey r.store "tags").status)) =
      some (200, false, 404) := by
  decide

/-- C6 (amended): for every store, every key bound in it and every update request:
whenever the update is answered 200 and the key is still bound afterwards, its type is
the type it had before; and an update whose value has the shape of the type of the key,
with at least one element for a list, set, zset or hash, is answered 200 and leaves the
key bound, with the type it had. -/
theorem update_keeps_type (s : Store σ) (key : String) (value : Payload σ) (ttl : Option Int)
    (hbound : s key ≠ none) :
    (∀ r, updateKey s key ⟨value, ttl⟩ = some r → r.status = 200 → r.store key ≠ none →
      redisType r.store key = redisType s key) ∧
    (shaped (redisType s key) value →
      ∃ r, updateKey s key ⟨value, ttl⟩ = some r ∧ r.status = 200 ∧ r.store key ≠ none ∧
        redisType r.store key = redisType s key) := by
  constructor
  · intro r hrun hstatus hkept
    rcases updateKey_store s key value ttl r hbound hrun hstatus with h | ⟨v, h, htn⟩
    · exact absurd h hkept
    · rw [redisType_bound r.store key _ h, htn]
  · intro hshape
    obtain ⟨r, v, hrun, hstatus, hstore, htn, _⟩ := updateKey_shaped s key value ttl hshape
    exact ⟨r, hrun, hstatus, by simp [hstore], by rw [redisType_bound r.store key _ hstore, htn]⟩

/-- C6 (amended) at a concrete store: the set `tags` updated to `{x}` with a ttl of 10
seconds. -/
theorem update_keeps_type_witness :
    (tagsStore "tags" ≠ none ∧
      shaped (redisType tagsStore "tags") (.items ["x"] : Payload SafeInt)) ∧
    ∃ r, updateKey tagsStore "tags" ⟨.items ["x"], some 10⟩ = some r ∧ r.status = 200 ∧
      r.store "tags" ≠ none ∧ redisType r.store "tags" = redisType tagsStore "tags" :=
  ⟨⟨by decide, Or.inr (by decide), by decide⟩,
    (update_keeps_type tagsStore "tags" (.items ["x"]) (some 10) (by decide)).2
      ⟨Or.inr (by decide), by decide⟩⟩

/-! ## Facts about rendering -/

theorem markup_append (a b : String) : markup (a ++ b) = markup a ++ markup b := by
  simp [markup, String.data_append]

theorem escapeChar_markup (c : Char) : (escapeChar c).filter isMarkup = [] := by
  unfold escapeChar
  split_ifs with h1 h2 h3 h4 h5
  · decide
  · decide
  · decide
  · decide
  · decide
  · simp [isMarkup, h2, h3, h4, h5]

theorem escapeChars_markup (cs : List Char) : (escapeChars cs).filter isMarkup = [] := by
  induction cs with
  | nil => rfl
  | cons c cs ih => simp [escapeChars, escapeChar_markup, ih]

theorem markup_escapeHtml (text : Option String) : markup (escapeHtml text) = [] := by
  cases text with
  | none => rfl
  | some t => exact escapeChars_markup t.data

theorem markup_hashRows (fields : List (String × String)) :
    markup (hashRows fields) = markup (hashRows (fields.map fun _ => ("", ""))) := by
  induction fields with
  | nil => rfl
  | cons f fs ih =>
    obtain ⟨key, val⟩ := f
    simp only [hashRows, List.map_cons, markup_append, markup_escapeHtml, ih]

theorem markup_listRows (xs : List String) : ∀ index : Nat,
    markup (listRows index xs) = markup (listRows index (xs.map fun _ => "")) := by
  induction xs with
  | nil => intro index; rfl
  | cons x xs ih =>
    intro index
    simp only [listRows, List.map_cons, markup_append, markup_escapeHtml, ih]

theorem markup_setRows (xs : List String) :
    markup (setRows xs) = markup (setRows (xs.map fun _ => "")) := by
  induction xs with
  | nil => rfl
  | cons x xs ih => simp only [setRows, List.map_cons, markup_append, markup_escapeHtml, ih]

theorem markup_zsetRows : ∀ xs : List String,
    markup (zsetRows xs) = markup (zsetRows (blankMembers xs))
  | [] => rfl
  | [m] => by simp only [zsetRows, blankMembers, markup_append, markup_escapeHtml]
  | m :: v :: rest => by
    simp only [zsetRows, blankMembers, markup_append, markup_escapeHtml, markup_zsetRows rest]

/-- The markup characters of a rendering do not depend on the stored strings, the scores
of a zset apart. -/
theorem markup_renderValue (type : String) (value : Wire) :
    (renderValue type value).map markup = (renderValue type (redact type value)).map markup := by
  unfold renderValue
  by_cases h1 : type = "string"
  · cases value <;>
      simp [h1, redact, markup_append, markup_escapeHtml]
  by_cases h2 : type = "hash"
  · cases value <;>
      simp [h2, redact, markup_append, ← markup_hashRows, -List.map_const']
  by_cases h3 : type = "list"
  · cases value <;>
      simp [h3, redact, markup_append, ← markup_listRows, -List.map_const']
  by_cases h4 : type = "set"
  · cases value <;>
      simp [h4, redact, markup_append, ← markup_setRows, -List.map_const']
  by_cases h5 : type = "zset"
  · cases value <;>
      simp [h5, redact, markup_append, ← markup_zsetRows]
  simp [h1, h2, h3, h4, h5]

theorem ampsEscaped_append (a b : List Char) (ha : ampsEscaped a = true)
    (hb : ampsEscaped b = true) : ampsEscaped (a ++ b) = true := by
  induction a with
  | nil => exact hb
  | cons c cs ih =>
    simp only [ampsEscaped, Bool.and_eq_true, Bool.or_eq_true, decide_eq_true_eq,
      List.any_eq_true] at ha
    simp only [List.cons_append, ampsEscaped, Bool.and_eq_true, Bool.or_eq_true,
      decide_eq_true_eq, List.any_eq_true]
    refine ⟨?_, ih ha.2⟩
    rcases ha.1 with h | ⟨e, he, hp⟩
    · exact Or.inl h
    · right
      refine ⟨e, he, ?_⟩
      rw [List.isPrefixOf_iff_prefix] at hp ⊢
      exact hp.trans (List.prefix_append (c :: cs) b)

theorem ampsEscaped_of_not_mem (l : List Char) (h : '&' ∉ l) : ampsEscaped l = true := by
  induction l with
  | nil => rfl
  | cons c cs ih =>
    simp only [List.mem_cons, not_or] at h
    simp only [ampsEscaped, Bool.and_eq_true, Bool.or_eq_true, decide_eq_true_eq]
    exact ⟨Or.inl (fun e => h.1 e.symm), ih h.2⟩

theorem ampsEscaped_escapeChar (c : Char) : ampsEscaped (escapeChar c) = true := by
  unfold escapeChar
  split_ifs with h1 h2 h3 h4 h5
  · decide
  · decide
  · decide
  · decide
  · decide
  · simp [ampsEscaped, h1]

theorem ampsEscaped_escapeChars (cs : List Char) : ampsEscaped (escapeChars cs) = true := by
  induction cs with
  | nil => rfl
  | cons c cs ih => exact ampsEscaped_append _ _ (ampsEscaped_escapeChar c) ih

theorem ampsEscaped_escapeHtml (text : Option String) :
    ampsEscaped (escapeHtml text).data = true := by
  cases text with
  | none => rfl
  | some t => exact ampsEscaped_escapeChars t.data

theorem digitChar_plain (d : Nat) (hd : d < 10) :
    isMarkup (digitChar d) = false ∧ digitChar d ≠ '&' := by
  interval_cases d <;> decide

theorem decimal_plain (n : Nat) (c : Char) (hc : c ∈ decimal n) :
    isMarkup c = false ∧ c ≠ '&' := by
  simp only [decimal, List.mem_map, List.mem_reverse] at hc
  obtain ⟨d, hd, rfl⟩ := hc
  exact digitChar_plain d (digitsLE_lt _ _ _ hd)

theorem ampsEscaped_append_string (a b : String) (ha : ampsEscaped a.data = true)
    (hb : ampsEscaped b.data = true) : ampsEscaped (a ++ b).data = true := by
  rw [String.data_append]
  exact ampsEscaped_append _ _ ha hb

set_option maxRecDepth 100000 in
theorem ampsEscaped_templates :
    ampsEscaped stringOpen.data = true ∧ ampsEscaped stringClose.data = true ∧
    ampsEscaped rowOpen.data = true ∧ ampsEscaped cellBreak.data = true ∧
    ampsEscaped rowClose.data = true ∧ ampsEscaped hashHead.data = true ∧
    ampsEscaped listHead.data = true ∧ ampsEscaped setHead.data = true ∧
    ampsEscaped tableTail.data = true ∧ ampsEscaped unknownType.data = true := by
  decide

theorem ampsEscaped_hashRows (fields : List (String × String)) :
    ampsEscaped (hashRows fields).data = true := by
  obtain ⟨_, _, h3, h4, h5, _⟩ := ampsEscaped_templates
  induction fields with
  | nil => rfl
  | cons f fs ih =>
    obtain ⟨key, val⟩ := f
    simp only [hashRows]
    exact ampsEscaped_append_string _ _ (ampsEscaped_append_string _ _
      (ampsEscaped_append_string _ _ (ampsEscaped_append_string _ _
        (ampsEscaped_append_string _ _ h3 (ampsEscaped_escapeHtml _)) h4)
        (ampsEscaped_escapeHtml _)) h5) ih

theorem ampsEscaped_listRows (xs : List String) : ∀ index : Nat,
    ampsEscaped (listRows index xs).data = true := by
  obtain ⟨_, _, h3, h4, h5, _⟩ := ampsEscaped_templates
  induction xs with
  | nil => intro index; rfl
  | cons x xs ih =>
    intro index
    simp only [listRows]
    have hidx : ampsEscaped (String.mk (decimal index)).data = true :=
      ampsEscaped_of_not_mem _ (fun h => (decimal_plain index _ h).2 rfl)
    exact ampsEscaped_append_string _ _ (ampsEscaped_append_string _ _
      (ampsEscaped_append_string _ _ (ampsEscaped_append_string _ _
        (ampsEscaped_append_string _ _ h3 hidx) h4)
        (ampsEscaped_escapeHtml _)) h5) (ih _)

theorem ampsEscaped_setRows (xs : List String) : ampsEscaped (setRows xs).data = true := by
  obtain ⟨_, _, h3, _, h5, _⟩ := ampsEscaped_templates
  induction xs with
  | nil => rfl
  | cons x xs ih =>
    simp only [setRows]
    exact ampsEscaped_append_string _ _ (ampsEscaped_append_string _ _
      (ampsEscaped_append_string _ _ h3 (ampsEscaped_escapeHtml _)) h5) ih

set_option maxRecDepth 100000 in
theorem ampsEscaped_zset_templates :
    ampsEscaped zsetRowOpen.data = true ∧ ampsEscaped zsetCellBreak.data = true ∧
    ampsEscaped zsetRowClose.data = true ∧ ampsEscaped zsetHead.data = true := by
  decide

theorem ampsEscaped_renderValue (type : String) (value : Wire) (out : String)
    (hz : type ≠ "zset") (h : renderValue type value = some out) :
    ampsEscaped out.data = true := by
  obtain ⟨t1, t2, _, _, _, t6, t7, t8, t9, t10⟩ := ampsEscaped_templates
  unfold renderValue at h
  split_ifs at h with h1 h2 h3 h4
  · cases value <;> simp only [Option.some.injEq, reduceCtorEq] at h <;> subst h <;>
      exact ampsEscaped_append_string _ _
        (ampsEscaped_append_string _ _ t1 (ampsEscaped_escapeHtml _)) t2
  · cases value <;> simp only [Option.some.injEq, reduceCtorEq] at h
    subst h
    exact ampsEscaped_append_string _ _
      (ampsEscaped_append_string _ _ t6 (ampsEscaped_hashRows _)) t9
  · cases value <;> simp only [Option.some.injEq, reduceCtorEq] at h
    subst h
    exact ampsEscaped_append_string _ _
      (ampsEscaped_append_string _ _ t7 (ampsEscaped_listRows _ 0)) t9
  · cases value <;> simp only [Option.some.injEq, reduceCtorEq] at h
    subst h
    exact ampsEscaped_append_string _ _
      (ampsEscaped_append_string _ _ t8 (ampsEscaped_setRows _)) t9
  · simp only [Option.some.injEq] at h
    subst h
    exact t10

/-! ## Facts about `DEL` with several keys -/

theorem redisDel_store {τ : Type} (ks : List String) : ∀ (s : Store τ) (k : String),
    (redisDel s ks).2 k = if k ∈ ks then none else s k := by
  induction ks with
  | nil => intro s k; simp [redisDel]
  | cons x xs ih =>
    intro s k
    simp only [redisDel, ih, List.mem_cons]
    by_cases hx : k = x
    · subst hx
      by_cases hm : k ∈ xs <;> simp [hm]
    · by_cases hm : k ∈ xs <;> simp [hm, hx, Store.remove_other s x k hx]

theorem redisDel_count {τ : Type} (ks : List String) : ∀ s : Store τ,
    (redisDel s ks).1 = (ks.toFinset.filter (fun k => (s k).isSome = true)).card := by
  induction ks with
  | nil => intro s; simp [redisDel]
  | cons x xs ih =>
    intro s
    have hrest : xs.toFinset.filter (fun k => ((s.remove x) k).isSome = true) =
        (xs.toFinset.filter (fun k => (s k).isSome = true)).erase x := by
      ext k
      simp only [Finset.mem_filter, Finset.mem_erase, List.mem_toFinset]
      by_cases hk : k = x
      · subst hk; simp
      · simp [Store.remove_other s x k hk, hk]
    simp only [redisDel, ih, hrest, List.toFinset_cons, Finset.filter_insert]
    by_cases hx : (s x).isSome = true
    · rw [if_pos hx]
      have h1 : redisExists s x = 1 := by simp [redisExists, hx]
      rw [h1, ← Finset.erase_insert_eq_erase, Nat.add_comm]
      exact Finset.card_erase_add_one (Finset.mem_insert_self _ _)
    · rw [if_neg hx]
      have h0 : redisExists s x = 0 := by simp [redisExists, hx]
      have hnot : x ∉ xs.toFinset.filter (fun k => (s k).isSome = true) := by
        simp [hx]
      rw [h0, Finset.erase_eq_of_not_mem hnot]
      omega

/-! ## C11: delete multiple -/

/-- C11: for every store and every delete-multiple request: when `keys` is missing, is
not an array or is the empty array, the response is 400 and the store is unchanged;
otherwise the response is 200, none of the listed keys is bound afterwards, every key
that is not listed holds what it held, and `deletedCount` is the number of distinct
listed keys that were bound before the request, which is at most the number of keys
listed. -/
theorem deleteMultiple_spec {τ : Type} (s : Store τ) (keys : Option (List String)) :
    ((keys = none ∨ keys = some []) →
      deleteMultiple s keys = ⟨400, .error "Keys array is required", s⟩) ∧
    (∀ ks, keys = some ks → ks ≠ [] →
      (deleteMultiple s keys).status = 200 ∧
      (∀ k, k ∈ ks → (deleteMultiple s keys).store k = none) ∧
      (∀ k, k ∉ ks → (deleteMultiple s keys).store k = s k) ∧
      (deleteMultiple s keys).body =
        .deleted
          (⟨decimal (ks.toFinset.filter (fun k => (s k).isSome = true)).card⟩ ++
            " key(s) deleted successfully")
          (ks.toFinset.filter (fun k => (s k).isSome = true)).card ∧
      (ks.toFinset.filter (fun k => (s k).isSome = true)).card ≤ ks.length) := by
  constructor
  · rintro (h | h) <;> subst h <;> rfl
  · intro ks hks hne
    subst hks
    cases ks with
    | nil => exact absurd rfl hne
    | cons x xs =>
      refine ⟨rfl, ?_, ?_, ?_, ?_⟩
      · intro k hk
        show (redisDel s (x :: xs)).2 k = none
        rw [redisDel_store, if_pos hk]
      · intro k hk
        show (redisDel s (x :: xs)).2 k = s k
        rw [redisDel_store, if_neg hk]
      · show Body.deleted (⟨decimal (redisDel s (x :: xs)).1⟩ ++ " key(s) deleted successfully")
          (redisDel s (x :: xs)).1 = _
        rw [redisDel_count]
      · exact le_trans (Finset.card_filter_le _ _) (List.toFinset_card_le _)

/-- C11 at concrete requests on the store holding `a`, `b` and `c`: a request without
keys and a request with the empty array are answered 400; the request listing `a`, `x`,
`a`, `c` is answered 200 with a count of 2, after which `a` and `c` are unbound and `b`
holds what it held. -/
theorem deleteMultiple_spec_witness :
    deleteMultiple abcStore none = ⟨400, .error "Keys array is required", abcStore⟩ ∧
    deleteMultiple abcStore (some []) = ⟨400, .error "Keys array is required", abcStore⟩ ∧
    ((["a", "x", "a", "c"] : List String) ≠ [] ∧
      (deleteMultiple abcStore (some ["a", "x", "a", "c"])).status = 200 ∧
      (deleteMultiple abcStore (some ["a", "x", "a", "c"])).store "a" = none ∧
      (deleteMultiple abcStore (some ["a", "x", "a", "c"])).store "b" = abcStore "b") ∧
    (deleteMultiple abcStore (some ["a", "x", "a", "c"])).body =
      .deleted "2 key(s) deleted successfully" 2 :=
  ⟨(deleteMultiple_spec abcStore none).1 (Or.inl rfl),
    (deleteMultiple_spec abcStore (some [])).1 (Or.inr rfl),
    ⟨by decide,
      ((deleteMultiple_spec abcStore (some ["a", "x", "a", "c"])).2 _ rfl (by decide)).1,
      ((deleteMultiple_spec abcStore (some ["a", "x", "a", "c"])).2 _ rfl (by decide)).2.1
        "a" (by decide),
      ((deleteMultiple_spec abcStore (some ["a", "x", "a", "c"])).2 _ rfl (by decide)).2.2.1
        "b" (by decide)⟩,
    by decide⟩

/-! ## Facts about `escapeHtml` -/

theorem escapeChars_eq_flatMap (cs : List Char) : escapeChars cs = cs.flatMap escapeChar := by
  induction cs with
  | nil => rfl
  | cons c cs ih => simp [escapeChars, List.flatMap_cons, ih]

theorem escapeChar_cases (c : Char) :
    (c = '&' ∧ escapeChar c = ['&', 'a', 'm', 'p', ';']) ∨
    (c = '<' ∧ escapeChar c = ['&', 'l', 't', ';']) ∨
    (c = '>' ∧ escapeChar c = ['&', 'g', 't', ';']) ∨
    (c = Char.ofNat 34 ∧ escapeChar c = ['&', 'q', 'u', 'o', 't', ';']) ∨
    (c = Char.ofNat 39 ∧ escapeChar c = ['&', '#', '0', '3', '9', ';']) ∨
    (c ≠ '&' ∧ escapeChar c = [c]) := by
  unfold escapeChar
  split_ifs with h1 h2 h3 h4 h5
  · exact Or.inl ⟨h1, rfl⟩
  · exact Or.inr (Or.inl ⟨h2, rfl⟩)
  · exact Or.inr (Or.inr (Or.inl ⟨h3, rfl⟩))
  · exact Or.inr (Or.inr (Or.inr (Or.inl ⟨h4, rfl⟩)))
  · exact Or.inr (Or.inr (Or.inr (Or.inr (Or.inl ⟨h5, rfl⟩))))
  · exact Or.inr (Or.inr (Or.inr (Or.inr (Or.inr ⟨h1, rfl⟩))))

theorem escapeChar_ne_nil (c : Char) : escapeChar c ≠ [] := by
  rcases escapeChar_cases c with ⟨_, e⟩ | ⟨_, e⟩ | ⟨_, e⟩ | ⟨_, e⟩ | ⟨_, e⟩ | ⟨_, e⟩ <;>
    rw [e] <;> exact List.cons_ne_nil _ _

/-- Two characters whose replacements, each followed by some text, give the same text
are the same character, and so are the texts that follow. -/
theorem escapeChar_append_inj (a b : Char) (xs ys : List Char)
    (h : escapeChar a ++ xs = escapeChar b ++ ys) : a = b ∧ xs = ys := by
  rcases escapeChar_cases a with ⟨ha, ea⟩ | ⟨ha, ea⟩ | ⟨ha, ea⟩ | ⟨ha, ea⟩ | ⟨ha, ea⟩ | ⟨ha, ea⟩ <;>
  rcases escapeChar_cases b with ⟨hb, eb⟩ | ⟨hb, eb⟩ | ⟨hb, eb⟩ | ⟨hb, eb⟩ | ⟨hb, eb⟩ | ⟨hb, eb⟩ <;>
  rw [ea, eb] at h <;>
  simp only [List.cons_append, List.nil_append, List.cons.injEq] at h <;>
  first
    | exact ⟨ha.trans hb.symm, by simp_all⟩
    | exact absurd h.1.symm hb
    | exact absurd h.1 ha
    | exact ⟨h.1, h.2⟩
    | exact absurd h.2.1 (by decide)

theorem escapeChars_injective : ∀ as bs : List Char,
    escapeChars as = escapeChars bs → as = bs
  | [], [] => fun _ => rfl
  | [], b :: bs => fun h => by
    have h2 : escapeChar b ++ escapeChars bs = [] := h.symm
    exact absurd (List.append_eq_nil.1 h2).1 (escapeChar_ne_nil b)
  | a :: as, [] => fun h => by
    have h2 : escapeChar a ++ escapeChars as = [] := h
    exact absurd (List.append_eq_nil.1 h2).1 (escapeChar_ne_nil a)
  | a :: as, b :: bs => fun h => by
    have h2 : escapeChar a ++ escapeChars as = escapeChar b ++ escapeChars bs := h
    obtain ⟨hab, hrest⟩ := escapeChar_append_inj a b _ _ h2
    rw [hab, escapeChars_injective as bs hrest]

theorem escapeChars_no_markup (cs : List Char) (c : Char) (hc : c ∈ escapeChars cs) :
    c ≠ '<' ∧ c ≠ '>' ∧ c ≠ Char.ofNat 34 ∧ c ≠ Char.ofNat 39 := by
  have h := escapeChars_markup cs
  rw [List.filter_eq_nil_iff] at h
  have hm := h c hc
  simp only [isMarkup, Bool.or_eq_true, decide_eq_true_eq, not_or] at hm
  exact ⟨hm.1.1.1, hm.1.1.2, hm.1.2, hm.2⟩

/-! ## C12: escapeHtml -/

/-- C12: for every string, `escapeHtml` is the character-by-character replacement of
`&`, `<`, `>`, the double quote and the single quote by `&amp;`, `&lt;`, `&gt;`, `&quot;`
and `&#039;`, every other character kept in its place: the output is the concatenation,
in order, of the replacements of the characters, where the replacement of each of the
five is its entity and that of any other character is the character.  Consequently the
output holds no `<`, `>`, double quote or single quote, every `&` of the output begins
one of the five entities, and `escapeHtml` is injective on strings.  For `null` and
`undefined` the result is the empty string. -/
theorem escapeHtml_spec :
    (∀ text : String, (escapeHtml (some text)).data = text.data.flatMap escapeChar) ∧
    (escapeChar '&' = "&amp;".data ∧ escapeChar '<' = "&lt;".data ∧
      escapeChar '>' = "&gt;".data ∧ escapeChar (Char.ofNat 34) = "&quot;".data ∧
      escapeChar (Char.ofNat 39) = "&#039;".data) ∧
    (∀ c : Char, c ≠ '&' → c ≠ '<' → c ≠ '>' → c ≠ Char.ofNat 34 → c ≠ Char.ofNat 39 →
      escapeChar c = [c]) ∧
    (∀ (text : String) (c : Char), c ∈ (escapeHtml (some text)).data →
      c ≠ '<' ∧ c ≠ '>' ∧ c ≠ Char.ofNat 34 ∧ c ≠ Char.ofNat 39) ∧
    (∀ text : String, ampsEscaped (escapeHtml (some text)).data = true) ∧
    Function.Injective (fun text : String => escapeHtml (some text)) ∧
    escapeHtml none = "" := by
  refine ⟨fun text => escapeChars_eq_flatMap text.data,
    ⟨by decide, by decide, by decide, by decide, by decide⟩, ?_,
    fun text c hc => escapeChars_no_markup text.data c hc,
    fun text => ampsEscaped_escapeHtml (some text), ?_, rfl⟩
  · intro c h1 h2 h3 h4 h5
    simp [escapeChar, h1, h2, h3, h4, h5]
  · intro a b h
    have hdata : escapeChars a.data = escapeChars b.data := congrArg String.data h
    exact String.ext (escapeChars_injective a.data b.data hdata)

/-- C12 on a text that holds all five special characters, on the plain character `x`,
and on the two texts `&lt;` and `<`, which are escaped differently. -/
theorem escapeHtml_spec_witness :
    escapeHtml (some "<a href=\"x\">Tom & Jerry's</a>") =
      "&lt;a href=&quot;x&quot;&gt;Tom &amp; Jerry&#039;s&lt;/a&gt;" ∧
    ampsEscaped (escapeHtml (some "<a href=\"x\">Tom & Jerry's</a>")).data = true ∧
    (('x' : Char) ≠ '&' ∧ ('x' : Char) ≠ '<' ∧ ('x' : Char) ≠ '>' ∧
      ('x' : Char) ≠ Char.ofNat 34 ∧ ('x' : Char) ≠ Char.ofNat 39 ∧ escapeChar 'x' = ['x']) ∧
    escapeHtml (some "&lt;") ≠ escapeHtml (some "<") :=
  ⟨by decide,
    escapeHtml_spec.2.2.2.2.1 "<a href=\"x\">Tom & Jerry's</a>",
    ⟨by decide, by decide, by decide, by decide, by decide,
      escapeHtml_spec.2.2.1 'x' (by decide) (by decide) (by decide) (by decide) (by decide)⟩,
    fun h => absurd (escapeHtml_spec.2.2.2.2.2.1 h) (by decide)⟩

/-! ## Facts about the form of a rendering -/

theorem join_cons (a : String) (l : List String) : String.join (a :: l) = a ++ String.join l := by
  apply String.ext
  simp [String.join_eq, String.data_append]

theorem hashRows_eq_join (fields : List (String × String)) :
    hashRows fields = String.join (fields.map fun f =>
      rowOpen ++ escapeHtml (some f.1) ++ cellBreak ++ escapeHtml (some f.2) ++ rowClose) := by
  induction fields with
  | nil => rfl
  | cons f fs ih =>
    obtain ⟨key, val⟩ := f
    rw [List.map_cons, join_cons, ← ih]
    rfl

theorem listRows_eq_join (xs : List String) : ∀ index : Nat,
    listRows index xs = String.join ((xs.enumFrom index).map fun ix =>
      rowOpen ++ ⟨decimal ix.1⟩ ++ cellBreak ++ escapeHtml (some ix.2) ++ rowClose) := by
  induction xs with
  | nil => intro index; rfl
  | cons x xs ih =>
    intro index
    rw [List.enumFrom_cons, List.map_cons, join_cons, ← ih]
    rfl

theorem setRows_eq_join (xs : List String) :
    setRows xs = String.join (xs.map fun x => rowOpen ++ escapeHtml (some x) ++ rowClose) := by
  induction xs with
  | nil => rfl
  | cons x xs ih =>
    rw [List.map_cons, join_cons, ← ih]
    rfl

theorem zsetRows_eq_join (pairs : List (String × String)) :
    zsetRows (pairs.flatMap fun p => [p.1, p.2]) = String.join (pairs.map fun p =>
      zsetRowOpen ++ escapeHtml (some p.1) ++ zsetCellBreak ++ p.2 ++ zsetRowClose) := by
  induction pairs with
  | nil => rfl
  | cons p ps ih =>
    rw [List.map_cons, join_cons, ← ih]
    rfl

theorem withScores_eq_flatMap (ps : List (String × σ)) :
    withScores ps = (ps.map fun p => (p.1, formatScore p.2)).flatMap fun p => [p.1, p.2] := by
  induction ps with
  | nil => rfl
  | cons p ps ih => simp [withScores, ih]

theorem escapeChars_plain (cs : List Char) (h : ∀ c, c ∈ cs → isSpecial c = false) :
    escapeChars cs = cs := by
  induction cs with
  | nil => rfl
  | cons c cs ih =>
    have hc := h c (List.mem_cons_self c cs)
    simp only [isSpecial, isMarkup, Bool.or_eq_false_iff, decide_eq_false_iff_not] at hc
    have hone : escapeChar c = [c] := by
      simp [escapeChar, hc.1, hc.2.1.1.1, hc.2.1.1.2, hc.2.1.2, hc.2.2]
    rw [escapeChars, hone, ih (fun d hd => h d (List.mem_cons_of_mem c hd))]
    rfl

theorem escapeHtml_plain (text : String) (h : ∀ c, c ∈ text.data → isSpecial c = false) :
    escapeHtml (some text) = text := by
  apply String.ext
  exact escapeChars_plain text.data h

theorem markup_plain (text : String) (h : ∀ c, c ∈ text.data → isSpecial c = false) :
    markup text = [] := by
  unfold markup
  rw [List.filter_eq_nil_iff]
  intro c hc
  have hs := h c hc
  simp only [isSpecial, Bool.or_eq_false_iff] at hs
  simp [hs.2]

theorem ampsEscaped_plain (text : String) (h : ∀ c, c ∈ text.data → isSpecial c = false) :
    ampsEscaped text.data = true := by
  apply ampsEscaped_of_not_mem
  intro hmem
  have hs := h _ hmem
  simp [isSpecial] at hs

theorem ampsEscaped_zsetRows (pairs : List (String × String))
    (h : ∀ p, p ∈ pairs → ampsEscaped p.2.data = true) :
    ampsEscaped (zsetRows (pairs.flatMap fun p => [p.1, p.2])).data = true := by
  obtain ⟨h1, h2, h3, _⟩ := ampsEscaped_zset_templates
  induction pairs with
  | nil => rfl
  | cons p ps ih =>
    have hp := h p (List.mem_cons_self p ps)
    have hrest := ih (fun q hq => h q (List.mem_cons_of_mem p hq))
    show ampsEscaped (zsetRowOpen ++ escapeHtml (some p.1) ++ zsetCellBreak ++ p.2 ++
      zsetRowClose ++ zsetRows (ps.flatMap fun p => [p.1, p.2])).data = true
    exact ampsEscaped_append_string _ _ (ampsEscaped_append_string _ _
      (ampsEscaped_append_string _ _ (ampsEscaped_append_string _ _
        (ampsEscaped_append_string _ _ h1 (ampsEscaped_escapeHtml _)) h2) hp) h3) hrest

theorem markup_zsetRows_scores (pairs : List (String × String))
    (h : ∀ p, p ∈ pairs → markup p.2 = []) :
    markup (zsetRows (pairs.flatMap fun p => [p.1, p.2])) =
      markup (zsetRows ((pairs.flatMap fun p => [p.1, p.2]).map fun _ => "")) := by
  induction pairs with
  | nil => rfl
  | cons p ps ih =>
    have hp := h p (List.mem_cons_self p ps)
    have hrest := ih (fun q hq => h q (List.mem_cons_of_mem p hq))
    show markup (zsetRowOpen ++ escapeHtml (some p.1) ++ zsetCellBreak ++ p.2 ++
      zsetRowClose ++ zsetRows (ps.flatMap fun p => [p.1, p.2])) =
      markup (zsetRowOpen ++ escapeHtml (some "") ++ zsetCellBreak ++ "" ++
      zsetRowClose ++ zsetRows ((ps.flatMap fun p => [p.1, p.2]).map fun _ => ""))
    simp only [markup_append, markup_escapeHtml, hp, hrest]
    rfl

/-- On the safe integers the text the store prints holds no special character. -/
theorem safeInt_prints_plain (v : SafeInt) (c : Char) (hc : c ∈ (formatScore v).data) :
    isSpecial c = false := by
  have hplain : ∀ n d, d ∈ decimal n → isSpecial d = false := by
    intro n d hd
    have h := decimal_plain n d hd
    simp [isSpecial, h.1, h.2]
  change c ∈ (SafeInt.formatScore v).data at hc
  unfold SafeInt.formatScore at hc
  split at hc
  · rcases List.mem_cons.1 hc with rfl | hc
    · decide
    · exact hplain _ c hc
  · exact hplain _ c hc

/-! ## C10: rendering escapes the stored strings -/

set_option maxRecDepth 100000 in
/-- C10, as stated, fails for the scores of a zset, which the claim counts among the
strings of arbitrary text: `renderValue` escapes the member of a row and inserts the
score as it is, so a score `<b>`, whose escaped form is `&lt;b&gt;`, reaches the output
as markup. -/
theorem renderValue_zset_score_raw :
    escapeHtml (some "<b>") = "&lt;b&gt;" ∧
    renderValue "zset" (.items ["m", "<b>"]) =
      some "\n                <table class=\"value-table\">\n                    <thead>\n                        <tr>\n                            <th>Member</th>\n                            <th>Score</th>\n                        </tr>\n                    </thead>\n                    <tbody>\n                    <tr>\n                        <td>m</td>\n                        <td><b></td>\n                    </tr>\n                </tbody>\n                </table>\n            " := by
  decide

/-- C10 (amended): for every type among string, hash, list, set and zset and every
value of its wire shape, the HTML `renderValue` returns is the fixed text of the view
with, at the place of each stored string, its `escapeHtml` form — the string value, the
fields and values of a hash, the items of a list (beside their index), the members of a
set, the members of a zset — where the `escapeHtml` form of a text is the text with each
`&`, `<`, `>`, double quote and single quote replaced by its entity.  Hence the markup
characters of the output are those of the rendering with these strings replaced by the
empty string, and every `&` of the output begins one of the five entities (for a zset,
when no score holds a `&` that begins none).  The score of a zset row is inserted as it
is.  For the values the gateway sends, whose scores are the texts the store prints for
numbers and hold no special character, a score is its own `escapeHtml` form, so that
every string of the value is in the output in its `escapeHtml` form only. -/
theorem renderValue_escapes (type : String) (value : Wire) :
    ((∀ v : String, renderValue "string" (.text v) =
        some (stringOpen ++ escapeHtml (some v) ++ stringClose)) ∧
      (∀ fields : List (String × String), renderValue "hash" (.object fields) =
        some (hashHead ++ String.join (fields.map fun f =>
          rowOpen ++ escapeHtml (some f.1) ++ cellBreak ++ escapeHtml (some f.2) ++ rowClose) ++
          tableTail)) ∧
      (∀ xs : List String, renderValue "list" (.items xs) =
        some (listHead ++ String.join (xs.enum.map fun ix =>
          rowOpen ++ ⟨decimal ix.1⟩ ++ cellBreak ++ escapeHtml (some ix.2) ++ rowClose) ++
          tableTail)) ∧
      (∀ xs : List String, renderValue "set" (.items xs) =
        some (setHead ++ String.join (xs.map fun x =>
          rowOpen ++ escapeHtml (some x) ++ rowClose) ++ tableTail)) ∧
      (∀ pairs : List (String × String),
        renderValue "zset" (.items (pairs.flatMap fun p => [p.1, p.2])) =
        some (zsetHead ++ String.join (pairs.map fun p =>
          zsetRowOpen ++ escapeHtml (some p.1) ++ zsetCellBreak ++ p.2 ++ zsetRowClose) ++
          tableTail))) ∧
    (∀ text : String, (escapeHtml (some text)).data = text.data.flatMap fun c =>
      if c = '&' then "&amp;".data
      else if c = '<' then "&lt;".data
      else if c = '>' then "&gt;".data
      else if c = Char.ofNat 34 then "&quot;".data
      else if c = Char.ofNat 39 then "&#039;".data
      else [c]) ∧
    (renderValue type value).map markup = (renderValue type (redact type value)).map markup ∧
    (∀ out, type ≠ "zset" → renderValue type value = some out →
      ampsEscaped out.data = true) ∧
    (∀ (pairs : List (String × String)) (out : String),
      (∀ p, p ∈ pairs → ampsEscaped p.2.data = true) →
      renderValue "zset" (.items (pairs.flatMap fun p => [p.1, p.2])) = some out →
      ampsEscaped out.data = true) ∧
    ((∀ (v : σ) (c : Char), c ∈ (formatScore v).data → isSpecial c = false) →
      ∀ ps : List (String × σ),
        renderValue "zset" (.items (withScores ps)) =
          some (zsetHead ++ String.join (ps.map fun p =>
            zsetRowOpen ++ escapeHtml (some p.1) ++ zsetCellBreak ++
              escapeHtml (some (formatScore p.2)) ++ zsetRowClose) ++ tableTail) ∧
        (renderValue "zset" (.items (withScores ps))).map markup =
          (renderValue "zset" (.items ((withScores ps).map fun _ => ""))).map markup ∧
        ∀ out, renderValue "zset" (.items (withScores ps)) = some out →
          ampsEscaped out.data = true) := by
  obtain ⟨_, _, _, z4⟩ := ampsEscaped_zset_templates
  obtain ⟨_, _, _, _, _, _, _, _, t9, _⟩ := ampsEscaped_templates
  have hz : ∀ xs : List String,
      renderValue "zset" (.items xs) = some (zsetHead ++ zsetRows xs ++ tableTail) := by
    intro xs
    simp [renderValue]
  refine ⟨⟨?_, ?_, ?_, ?_, ?_⟩, ?_, markup_renderValue type value,
    fun out hne h => ampsEscaped_renderValue type value out hne h, ?_, ?_⟩
  · intro v
    simp [renderValue]
  · intro fields
    simp [renderValue, hashRows_eq_join]
  · intro xs
    simp [renderValue, listRows_eq_join, List.enum]
  · intro xs
    simp [renderValue, setRows_eq_join]
  · intro pairs
    rw [hz, zsetRows_eq_join]
  · intro text
    exact escapeChars_eq_flatMap text.data
  · intro pairs out hp h
    rw [hz] at h
    simp only [Option.some.injEq] at h
    subst h
    exact ampsEscaped_append_string _ _
      (ampsEscaped_append_string _ _ z4 (ampsEscaped_zsetRows pairs hp)) t9
  · intro hplain ps
    have hfix : ∀ v : σ, escapeHtml (some (formatScore v)) = formatScore v :=
      fun v => escapeHtml_plain _ (hplain v)
    refine ⟨?_, ?_, ?_⟩
    · rw [hz, withScores_eq_flatMap, zsetRows_eq_join, List.map_map]
      simp only [hfix]
      rfl
    · rw [hz, hz, withScores_eq_flatMap]
      simp only [Option.map_some', Option.some.injEq, markup_append]
      rw [markup_zsetRows_scores]
      intro p hp
      obtain ⟨q, _, rfl⟩ := List.mem_map.1 hp
      exact markup_plain _ (hplain q.2)
    · intro out h
      rw [hz, withScores_eq_flatMap] at h
      simp only [Option.some.injEq] at h
      subst h
      refine ampsEscaped_append_string _ _
        (ampsEscaped_append_string _ _ z4 (ampsEscaped_zsetRows _ ?_)) t9
      intro p hp
      obtain ⟨q, _, rfl⟩ := List.mem_map.1 hp
      exact ampsEscaped_plain _ (hplain q.2)

set_option maxRecDepth 100000 in
/-- C10 (amended) on a list holding a script tag and an ampersand, and on the zset
the gateway sends for the member `a&b` with score 1. -/
theorem renderValue_escapes_witness :
    (("list" : String) ≠ "zset" ∧
      (∀ (v : SafeInt) (c : Char), c ∈ (formatScore v).data → isSpecial c = false)) ∧
    renderValue "list" (.items ["<script>", "a&b"]) =
      some "\n                <table class=\"value-table\">\n                    <thead>\n                        <tr>\n                            <th>Index</th>\n                            <th>Value</th>\n                        </tr>\n                    </thead>\n                    <tbody>\n                <tr>\n                    <td>0</td>\n                    <td>&lt;script&gt;</td>\n                </tr>\n            \n                <tr>\n                    <td>1</td>\n                    <td>a&amp;b</td>\n                </tr>\n            </tbody>\n                </table>\n            " ∧
    (∀ out, renderValue "list" (.items ["<script>", "a&b"]) = some out →
      ampsEscaped out.data = true) ∧
    (renderValue "list" (.items ["<script>", "a&b"])).map markup =
      (renderValue "list" (.items ["", ""])).map markup ∧
    renderValue "zset" (.items (withScores [("a&b", scoreOne)])) =
      some "\n                <table class=\"value-table\">\n                    <thead>\n                        <tr>\n                            <th>Member</th>\n                            <th>Score</th>\n                        </tr>\n                    </thead>\n                    <tbody>\n                    <tr>\n                        <td>a&amp;b</td>\n                        <td>1</td>\n                    </tr>\n                </tbody>\n                </table>\n            " ∧
    (∀ out, renderValue "zset" (.items (withScores [("a&b", scoreOne)])) = some out →
      ampsEscaped out.data = true) :=
  ⟨⟨by decide, safeInt_prints_plain⟩,
    by decide,
    fun out h =>
      (@renderValue_escapes SafeInt _ "list" (.items ["<script>", "a&b"])).2.2.2.1 out
        (by decide) h,
    (@renderValue_escapes SafeInt _ "list" (.items ["<script>", "a&b"])).2.2.1,
    by decide,
    ((@renderValue_escapes SafeInt _ "list" (.items ["<script>", "a&b"])).2.2.2.2.2
      safeInt_prints_plain [("a&b", scoreOne)]).2.2⟩

end CrudRedis
